import Mathlib

/-!
# FBReader library: books, tags, authors and comparators

A shallow embedding of `fbreader/src/library/Book.cpp` and
`fbreader/src/library/Comparators.cpp`.

Conventions of the embedding.

* `shared_ptr<X>` is `Option X`; the null pointer is `none`.  Two handles are
  equal (`operator==`) when they point to the same instance.
* `std::string` is `String`; `operator<` on strings is the lexicographic
  comparison of the two character sequences (`stdLess`).
* `std::vector<X>` is `List X`.
* `Tag.h`, `Tag.cpp` and `Author.h` are not among the sources.  The type of the
  tag instances is a type parameter `T`; the members of `Tag` that the code
  calls (`name`, `parent`, `level`, `isAncestorOf`, `cloneSubTag`) and the
  address order of `shared_ptr<Tag>` are parameters of the functions that use
  them.  The section "A model of Tag" gives one instance of these parameters,
  modelled from the spec.
* A function in which a null handle can be dereferenced returns `Option`;
  `none` is the undefined behaviour of that dereference.
* `int` is `Int`, the result of an `int` subtraction wrapped to 32 bits
  (`wrapInt32`); `size_t` is `Nat` with arithmetic modulo `2 ^ w`.
* A loop whose end is not evident from its form runs on `fuel`; the theorems
  say how much fuel gives the result.
-/

namespace FBReader

/-! ## Strings -/

/-- The `operator<` of `std::string`: lexicographic order of the character sequences. -/
def stdLess (a b : String) : Bool :=
  decide (a.toList < b.toList)

/-- The sign of `std::string::compare`: negative, zero or positive. -/
def stdCompare (a b : String) : Int :=
  if stdLess a b then -1 else if a = b then 0 else 1

/-! ## Data model -/

/-- Modelled from the spec: `Author.h` is not among the sources; an author is
"identified by (display name, sort key) pair". -/
structure Author where
  name : String
  sortKey : String
deriving DecidableEq

/-- Modelled from the spec: `ZLFile` is not among the sources; "a file abstraction
providing path and display-name-from-path" (`path()` and `name(true)`). -/
structure ZLFile where
  path : String
  displayName : String
deriving DecidableEq

/-- The data members of `Book`; `T` is the type of tag instances. -/
structure Book (T : Type) where
  myBookId : Int
  myFile : ZLFile
  myTitle : String
  myLanguage : String
  myEncoding : String
  mySeriesTitle : String
  myIndexInSeries : Int
  myTags : List (Option T)
  myAuthors : List (Option Author)

/-- The constructor `Book::Book(file, id)`. -/
def Book.new (T : Type) (file : ZLFile) (id : Int) : Book T :=
  { myBookId := id, myFile := file, myTitle := "", myLanguage := "", myEncoding := "",
    mySeriesTitle := "", myIndexInSeries := 0, myTags := [], myAuthors := [] }

/-! ## std::set of tag handles -/

section TagSet

variable {P : Type}

/-- The insertion `std::set<shared_ptr<Tag>>::insert(x)`.  The set is the list of its elements
in ascending order of the comparison `lt` of the handles (`operator<` of
`shared_ptr`, the order of the addresses); an element equivalent to `x`
(neither is less than the other) is already in the set and keeps its place. -/
def setInsert (lt : P → P → Bool) (x : P) : List P → List P
  | [] => [x]
  | y :: ys =>
    if lt x y then x :: y :: ys
    else if lt y x then y :: setInsert lt x ys
    else y :: ys

/-- The insertion `std::set::insert(first, last)`: the elements of a range inserted one by one. -/
def setInsertRange (lt : P → P → Bool) (range : List P) (tagSet : List P) : List P :=
  range.foldl (fun s x => setInsert lt x s) tagSet

/-- What the code relies on for `operator<` of handles: a strict total order
(the addresses of distinct instances are distinct). -/
structure IsAddressOrder (lt : P → P → Bool) : Prop where
  irrefl : ∀ a, lt a a = false
  trans : ∀ a b c, lt a b = true → lt b c = true → lt a c = true
  total : ∀ a b, lt a b = false → lt b a = false → a = b

/-- The assignment `*std::find(l.begin(), l.end(), a) = b`: the first element
equal to `a` is overwritten by `b`. -/
def assignFirst [DecidableEq P] (a b : P) : List P → List P
  | [] => []
  | x :: xs => if x = a then b :: xs else x :: assignFirst a b xs

end TagSet

/-! ## Tag operations of Book -/

section TagOperations

variable {T : Type} [DecidableEq T]

/-- The method `bool Book::addTag(shared_ptr<Tag> tag)`: the book after the call
and the returned flag. -/
def Book.addTag (book : Book T) (tag : Option T) : Book T × Bool :=
  if tag.isNone then
    (book, false)
  else if tag ∉ book.myTags then
    ({ book with myTags := book.myTags ++ [tag] }, true)
  else
    (book, false)

/-- The test `tag == *it || (includeSubTags && tag->isAncestorOf(*it))` of
`Book::removeTag`; `none` when the right operand dereferences a null `tag`. -/
def removeTagTest (isAncestorOf : T → Option T → Bool) (tag : Option T)
    (includeSubTags : Bool) (x : Option T) : Option Bool :=
  if tag = x then some true
  else if includeSubTags then
    match tag with
    | none => none
    | some t => some (isAncestorOf t x)
  else some false

/-- The loop of `Book::removeTag`.  `done` is the part of `myTags` before the
iterator, the third argument the part from the iterator on. -/
def removeTagLoop (isAncestorOf : T → Option T → Bool) (tag : Option T)
    (includeSubTags : Bool) :
    List (Option T) → Bool → List (Option T) → Option (List (Option T) × Bool)
  | done, changed, [] => some (done, changed)
  | done, changed, x :: rest =>
    match removeTagTest isAncestorOf tag includeSubTags x with
    | none => none
    | some true => removeTagLoop isAncestorOf tag includeSubTags done true rest
    | some false => removeTagLoop isAncestorOf tag includeSubTags (done ++ [x]) changed rest

/-- The method `bool Book::removeTag(shared_ptr<Tag> tag, bool includeSubTags)`. -/
def Book.removeTag (isAncestorOf : T → Option T → Bool) (book : Book T) (tag : Option T)
    (includeSubTags : Bool) : Option (Book T × Bool) :=
  match removeTagLoop isAncestorOf tag includeSubTags [] false book.myTags with
  | none => none
  | some (tags, changed) => some ({ book with myTags := tags }, changed)

/-- The loop of the `includeSubTags` branch of `Book::renameTag`, over the
remaining elements of `myTags`, with the local variables `tagSet` and `changed`. -/
def renameTagLoop (cloneSubTag : Option T → Option T → Option T → Option T)
    (lt : Option T → Option T → Bool) (from_ to_ : Option T) :
    List (Option T) → List (Option T) → Bool → List (Option T) × Bool
  | [], tagSet, changed => (tagSet, changed)
  | x :: rest, tagSet, changed =>
    if x = from_ then
      renameTagLoop cloneSubTag lt from_ to_ rest (setInsert lt to_ tagSet) true
    else
      let newtag := cloneSubTag x from_ to_
      if newtag.isNone then
        renameTagLoop cloneSubTag lt from_ to_ rest (setInsert lt x tagSet) changed
      else
        renameTagLoop cloneSubTag lt from_ to_ rest (setInsert lt newtag tagSet) true

/-- The method
`bool Book::renameTag(shared_ptr<Tag> from, shared_ptr<Tag> to, bool includeSubTags)`. -/
def Book.renameTag (cloneSubTag : Option T → Option T → Option T → Option T)
    (lt : Option T → Option T → Bool) (book : Book T) (from_ to_ : Option T)
    (includeSubTags : Bool) : Book T × Bool :=
  if includeSubTags then
    match renameTagLoop cloneSubTag lt from_ to_ book.myTags [] false with
    | (tagSet, true) => ({ book with myTags := tagSet }, true)
    | (_, false) => (book, false)
  else
    if from_ ∈ book.myTags then
      if to_ ∉ book.myTags then
        ({ book with myTags := assignFirst from_ to_ book.myTags }, true)
      else
        ({ book with myTags := book.myTags.erase from_ }, true)
    else
      (book, false)

/-- The loop of the `includeSubTags` branch of `Book::cloneTag`, over the
remaining elements of `myTags`, with the local variable `tagSet`. -/
def cloneTagLoop (cloneSubTag : Option T → Option T → Option T → Option T)
    (lt : Option T → Option T → Bool) (from_ to_ : Option T) :
    List (Option T) → List (Option T) → List (Option T)
  | [], tagSet => tagSet
  | x :: rest, tagSet =>
    if x = from_ then
      cloneTagLoop cloneSubTag lt from_ to_ rest (setInsert lt to_ tagSet)
    else
      let newtag := cloneSubTag x from_ to_
      if !newtag.isNone then
        cloneTagLoop cloneSubTag lt from_ to_ rest (setInsert lt newtag tagSet)
      else
        cloneTagLoop cloneSubTag lt from_ to_ rest tagSet

/-- The method
`bool Book::cloneTag(shared_ptr<Tag> from, shared_ptr<Tag> to, bool includeSubTags)`. -/
def Book.cloneTag (cloneSubTag : Option T → Option T → Option T → Option T)
    (lt : Option T → Option T → Bool) (book : Book T) (from_ to_ : Option T)
    (includeSubTags : Bool) : Book T × Bool :=
  if includeSubTags then
    let tagSet := cloneTagLoop cloneSubTag lt from_ to_ book.myTags []
    if !tagSet.isEmpty then
      ({ book with myTags := setInsertRange lt book.myTags tagSet }, true)
    else
      (book, false)
  else
    if from_ ∈ book.myTags then
      if to_ ∉ book.myTags then
        ({ book with myTags := book.myTags ++ [to_] }, true)
      else
        (book, false)
    else
      (book, false)

/-- The method `void Book::removeAllTags()`. -/
def Book.removeAllTags (book : Book T) : Book T :=
  { book with myTags := [] }

/-- The method `void Book::setLanguage(const std::string &language)`; `codes` is the list
`ZLLanguageList::languageCodes()`, which is not among the sources. -/
def Book.setLanguage (codes : List String) (book : Book T) (language : String) : Book T :=
  if book.myLanguage ≠ "" then
    if book.myLanguage ∈ codes ∧ language ∉ codes then
      book
    else
      { book with myLanguage := language }
  else
    { book with myLanguage := language }

/-- A call of one of the tag operations of `Book` with non-null arguments. -/
inductive TagOp (T : Type) where
  | addTag (tag : T)
  | removeTag (tag : T) (includeSubTags : Bool)
  | renameTag (from_ to_ : T) (includeSubTags : Bool)
  | cloneTag (from_ to_ : T) (includeSubTags : Bool)
  | removeAllTags

/-- The book after one call of a tag operation. -/
def Book.applyTagOp (isAncestorOf : T → Option T → Bool)
    (cloneSubTag : Option T → Option T → Option T → Option T)
    (lt : Option T → Option T → Bool) (book : Book T) : TagOp T → Option (Book T)
  | .addTag tag => some (book.addTag (some tag)).1
  | .removeTag tag includeSubTags =>
    (book.removeTag isAncestorOf (some tag) includeSubTags).map Prod.fst
  | .renameTag from_ to_ includeSubTags =>
    some (book.renameTag cloneSubTag lt (some from_) (some to_) includeSubTags).1
  | .cloneTag from_ to_ includeSubTags =>
    some (book.cloneTag cloneSubTag lt (some from_) (some to_) includeSubTags).1
  | .removeAllTags => some book.removeAllTags

/-- The book after a sequence of calls of tag operations, first call first. -/
def Book.applyTagOps (isAncestorOf : T → Option T → Bool)
    (cloneSubTag : Option T → Option T → Option T → Option T)
    (lt : Option T → Option T → Bool) : Book T → List (TagOp T) → Option (Book T)
  | book, [] => some book
  | book, op :: ops =>
    match book.applyTagOp isAncestorOf cloneSubTag lt op with
    | none => none
    | some next => Book.applyTagOps isAncestorOf cloneSubTag lt next ops

end TagOperations

/-! ## Comparators -/

/-- The comparator `bool AuthorComparator::operator()(author0, author1)`. -/
def AuthorComparator (author0 author1 : Option Author) : Bool :=
  match author0 with
  | none => !author1.isNone
  | some a0 =>
    match author1 with
    | none => false
    | some a1 =>
      let comp := stdCompare a0.sortKey a1.sortKey
      if comp ≠ 0 then decide (comp < 0) else stdLess a0.name a1.name

section TagComparator

variable {T : Type} [DecidableEq T]

/-- The loops `for (; level0 > level1; --level0) tag0 = tag0->parent();` of
`TagComparator`: `n` times `tag = tag->parent()`; `none` when `tag` is null at
one of these dereferences. -/
def climb (parent : T → Option T) : Nat → Option T → Option (Option T)
  | 0, tag => some tag
  | _ + 1, none => none
  | n + 1, some t => climb parent n (parent t)

/-- The loop `while (tag0->parent() != tag1->parent())` of `TagComparator`
followed by `return tag0->name() < tag1->name()`.  The loop is run for at most
`fuel` iterations; `none` when a null handle is dereferenced or the loop has
not ended by then. -/
def lockstep (parent : T → Option T) (name : T → String) :
    Nat → Option T → Option T → Option Bool
  | 0, some t0, some t1 =>
    if parent t0 ≠ parent t1 then none
    else some (stdLess (name t0) (name t1))
  | fuel + 1, some t0, some t1 =>
    if parent t0 ≠ parent t1 then lockstep parent name fuel (parent t0) (parent t1)
    else some (stdLess (name t0) (name t1))
  | _, _, _ => none

/-- The comparator `bool TagComparator::operator()(tag0, tag1)`; `level`, `parent` and `name`
are the accessors of `Tag`, which is not among the sources. -/
def TagComparator (level : T → Nat) (parent : T → Option T) (name : T → String)
    (fuel : Nat) (tag0 tag1 : Option T) : Option Bool :=
  match tag0, tag1 with
  | none, _ => some (!tag1.isNone)
  | some _, none => some false
  | some t0, some t1 =>
    let level0 := level t0
    let level1 := level t1
    if level0 > level1 then
      match climb parent (level0 - level1) (some t0) with
      | none => none
      | some tag0 =>
        if tag0 = some t1 then some false
        else lockstep parent name fuel tag0 (some t1)
    else if level0 < level1 then
      match climb parent (level1 - level0) (some t1) with
      | none => none
      | some tag1 =>
        if some t0 = tag1 then some true
        else lockstep parent name fuel (some t0) tag1
    else
      lockstep parent name fuel (some t0) (some t1)

end TagComparator

/-! ## Well-formed tags -/

/-- The names on the way from the root to a tag, read off the parent references:
`n` is the number of parent references followed at most. -/
def pathOf {T : Type} (parent : T → Option T) (name : T → String) : Nat → T → List String
  | 0, t => [name t]
  | n + 1, t =>
    match parent t with
    | none => [name t]
    | some p => pathOf parent name n p ++ [name t]

/-- The names from the root to a tag whose level is the length of its parent chain. -/
def tagPath {T : Type} (level : T → Nat) (parent : T → Option T) (name : T → String)
    (t : T) : List String :=
  pathOf parent name (level t) t

/-- Well-formed tags: the level of a tag is the length of its parent chain, and
siblings (tags with the same parent reference) have distinct names. -/
structure WellFormedTags {T : Type} (level : T → Nat) (parent : T → Option T)
    (name : T → String) : Prop where
  level_root : ∀ t, parent t = none → level t = 0
  level_child : ∀ t p, parent t = some p → level t = level p + 1
  siblings : ∀ a b, parent a = parent b → name a = name b → a = b

/-! ## A model of Tag -/

/-- Modelled from the spec: `Tag.h` and `Tag.cpp` are not among the sources.
"Tag: hierarchical value, organized as a parent-linked tree; each tag has a
name, a level (depth), and a parent reference (nullable at root)."  Tags are
values: the instance is determined by its parent and its name. -/
inductive Tag where
  | root (name : String)
  | child (parent : Tag) (name : String)
deriving DecidableEq

/-- Modelled from the spec: the name of a tag. -/
def Tag.name : Tag → String
  | .root n => n
  | .child _ n => n

/-- Modelled from the spec: the parent reference of a tag, "nullable at root". -/
def Tag.parent : Tag → Option Tag
  | .root _ => none
  | .child p _ => some p

/-- Modelled from the spec: the level (depth) of a tag, 0 at a root. -/
def Tag.level : Tag → Nat
  | .root _ => 0
  | .child p _ => p.level + 1

/-- Modelled from the spec: the names on the way from the root to the tag, the
components of the "dot-delimited path encoding a tag's position in its
hierarchy". -/
def Tag.path : Tag → List String
  | .root n => [n]
  | .child p n => p.path ++ [n]

/-- Modelled from the spec: the tag with the given name under the given parent
(a root tag when the parent is null). -/
def Tag.getTag (name : String) (parent : Option Tag) : Tag :=
  match parent with
  | none => .root name
  | some p => .child p name

/-- Modelled from the spec: whether `ancestor` is reached from the tag by
following parent references one or more times (the tag is a strict descendant). -/
def Tag.hasAncestor : Tag → Tag → Bool
  | .root _, _ => false
  | .child p _, ancestor => decide (p = ancestor) || p.hasAncestor ancestor

/-- Modelled from the spec: `Tag::isAncestorOf`, the "ancestor-of check" of
`removeTag`: `tag` is a strict descendant of `self`. -/
def Tag.isAncestorOf (self : Tag) (tag : Option Tag) : Bool :=
  match tag with
  | none => false
  | some t => t.hasAncestor self

/-- Modelled from the spec: the clone under `newparent` of a strict descendant of
`oldparent`, the tag with the same names below `newparent` as the tag has below
`oldparent`; `none` for a tag that is not a strict descendant of `oldparent`. -/
def Tag.cloneUnder (oldparent : Tag) (newparent : Option Tag) : Tag → Option Tag
  | .root _ => none
  | .child p n =>
    if p = oldparent then some (Tag.getTag n newparent)
    else (Tag.cloneUnder oldparent newparent p).map (fun q => Tag.child q n)

/-- Modelled from the spec: `Tag::cloneSubTag(tag, oldparent, newparent)`,
"cloning descendants under the new parent path": the clone of `tag` under
`newparent` when `tag` is a strict descendant of `oldparent`, null otherwise. -/
def Tag.cloneSubTag (tag oldparent newparent : Option Tag) : Option Tag :=
  match tag, oldparent with
  | some t, some o => Tag.cloneUnder o newparent t
  | _, _ => none

/-- Lexicographic order of sequences of names, a proper initial part first. -/
def lexLess : List String → List String → Bool
  | [], [] => false
  | [], _ :: _ => true
  | _ :: _, [] => false
  | a :: as, b :: bs => stdLess a b || (decide (a = b) && lexLess as bs)

/-- The sequence of names that identifies a handle: empty for null. -/
def Tag.key : Option Tag → List String
  | none => []
  | some t => t.path

/-- An address order of the handles of the model: instances laid out in the
order of their paths, null first. -/
def Tag.addressLess (a b : Option Tag) : Bool :=
  lexLess (Tag.key a) (Tag.key b)

/-- The book of the example of the spec, "tagged {Fiction, Fiction.SciFi, History}". -/
def exampleBook : Book Tag :=
  { Book.new Tag ⟨"/books/example.fb2", "example"⟩ 0 with
    myTags := [some (.root "Fiction"), some (.child (.root "Fiction") "SciFi"),
               some (.root "History")] }

/-! ## BookComparator -/

/-- The `operator<=` of `std::string`. -/
def stdLessEq (a b : String) : Bool :=
  !stdLess b a

/-- The value of a 32-bit `int` computation: the result wrapped into the range
from -2^31 to 2^31 - 1 (two's complement). -/
def wrapInt32 (x : Int) : Int :=
  (x + 2147483648) % 4294967296 - 2147483648

/-- The comparator `bool BookComparator::operator()(book0, book1)`, on the books
the two handles point to (they are dereferenced without a test);
`seriesName()` is the series title and `indexInSeries()` a 32-bit `int`. -/
def BookComparator {T : Type} (book0 book1 : Book T) : Bool :=
  let seriesName0 := book0.mySeriesTitle
  let seriesName1 := book1.mySeriesTitle
  let comp := stdCompare seriesName0 seriesName1
  if comp = 0 then
    if seriesName0 ≠ "" then
      let comp := wrapInt32 (book0.myIndexInSeries - book1.myIndexInSeries)
      if comp ≠ 0 then decide (comp < 0)
      else stdLess book0.myTitle book1.myTitle
    else stdLess book0.myTitle book1.myTitle
  else if seriesName0 = "" then stdLess book0.myTitle seriesName1
  else if seriesName1 = "" then stdLessEq seriesName0 book1.myTitle
  else decide (comp < 0)

/-- A book of the model of `Tag` with the given series title, index in series and title. -/
def seriesBook (series : String) (index : Int) (title : String) : Book Tag :=
  { Book.new Tag ⟨"/books/a.fb2", "a"⟩ 0 with
    mySeriesTitle := series, myIndexInSeries := index, myTitle := title }

/-- The sort key that `BookComparator` compares lexicographically when the index
differences do not overflow: the series title, or the title of a book without
series; series books before a book without series of that title; then the
index in the series and the title. -/
def bookKey {T : Type} (book : Book T) : String ×ₗ Nat ×ₗ Int ×ₗ String :=
  if book.mySeriesTitle ≠ "" then
    toLex (book.mySeriesTitle, toLex (0, toLex (book.myIndexInSeries, book.myTitle)))
  else
    toLex (book.myTitle, toLex (1, toLex (0, "")))

/-! ## Author operations and setters of Book -/

section AuthorOperations

variable {T : Type}

/-- The method `void Book::setTitle(const std::string &title)`. -/
def Book.setTitle (book : Book T) (title : String) : Book T :=
  { book with myTitle := title }

/-- The method `void Book::setEncoding(const std::string &encoding)`. -/
def Book.setEncoding (book : Book T) (encoding : String) : Book T :=
  { book with myEncoding := encoding }

/-- The method `void Book::setSeries(const std::string &title, int index)`. -/
def Book.setSeries (book : Book T) (title : String) (index : Int) : Book T :=
  { book with mySeriesTitle := title, myIndexInSeries := index }

/-- The method `void Book::addAuthor(shared_ptr<Author> author)`. -/
def Book.addAuthor (book : Book T) (author : Option Author) : Book T :=
  if !author.isNone then
    { book with myAuthors := book.myAuthors ++ [author] }
  else
    book

/-- The method `void Book::addAuthor(displayName, sortKey)`; `getAuthor` is
`Author::getAuthor`, which is not among the sources. -/
def Book.addAuthorByName (getAuthor : String → String → Option Author) (book : Book T)
    (displayName sortKey : String) : Book T :=
  book.addAuthor (getAuthor displayName sortKey)

/-- The method `void Book::removeAllAuthors()`. -/
def Book.removeAllAuthors (book : Book T) : Book T :=
  { book with myAuthors := [] }

/-- The method `bool Book::replaceAuthor(shared_ptr<Author> from, shared_ptr<Author> to)`. -/
def Book.replaceAuthor (book : Book T) (from_ to_ : Option Author) : Book T × Bool :=
  if from_ ∉ book.myAuthors then
    (book, false)
  else if to_.isNone then
    ({ book with myAuthors := book.myAuthors.erase from_ }, true)
  else
    ({ book with myAuthors := assignFirst from_ to_ book.myAuthors }, true)

end AuthorOperations

/-! ## Book::matches -/

section Matches

variable {T : Type}

/-- The loop of `Book::matches` over the authors, from element `i` on:
`some true` at the first author whose name matches, `none` when a null handle
is dereferenced first. -/
def matchesAuthorsLoop (matchesIgnoreCase : String → String → Bool) (pattern : String) :
    List (Option Author) → Option Bool
  | [] => some false
  | none :: _ => none
  | some author :: rest =>
    if matchesIgnoreCase author.name pattern then some true
    else matchesAuthorsLoop matchesIgnoreCase pattern rest

/-- The loop of `Book::matches` over the tags, from element `i` on; `name` is
the accessor `Tag::name`. -/
def matchesTagsLoop (matchesIgnoreCase : String → String → Bool) (name : T → String)
    (pattern : String) : List (Option T) → Option Bool
  | [] => some false
  | none :: _ => none
  | some tag :: rest =>
    if matchesIgnoreCase (name tag) pattern then some true
    else matchesTagsLoop matchesIgnoreCase name pattern rest

/-- The method `bool Book::matches(std::string pattern) const`;
`matchesIgnoreCase` is `ZLStringUtil::matchesIgnoreCase`, which is not among the
sources. -/
def Book.matches (matchesIgnoreCase : String → String → Bool) (name : T → String)
    (book : Book T) (pattern : String) : Option Bool :=
  if book.myTitle ≠ "" ∧ matchesIgnoreCase book.myTitle pattern = true then
    some true
  else if book.mySeriesTitle ≠ "" ∧ matchesIgnoreCase book.mySeriesTitle pattern = true then
    some true
  else
    match matchesAuthorsLoop matchesIgnoreCase pattern book.myAuthors with
    | none => none
    | some true => some true
    | some false =>
      match matchesTagsLoop matchesIgnoreCase name pattern book.myTags with
      | none => none
      | some true => some true
      | some false =>
        if matchesIgnoreCase book.myFile.displayName pattern then some true
        else some false

/-- Whether a sequence of characters begins with the pattern. -/
def beginsWith : List Char → List Char → Bool
  | _, [] => true
  | [], _ :: _ => false
  | t :: ts, p :: ps => decide (t = p) && beginsWith ts ps

/-- Whether the pattern occurs in a sequence of characters as a contiguous part. -/
def occursIn (pattern : List Char) : List Char → Bool
  | [] => beginsWith [] pattern
  | t :: ts => beginsWith (t :: ts) pattern || occursIn pattern ts

/-- Modelled from the spec: `ZLStringUtil::matchesIgnoreCase` is not among the
sources; "case-insensitive substring/pattern match": the pattern occurs in the
text when both are put in lower case. -/
def matchesIgnoreCase (text pattern : String) : Bool :=
  occursIn (pattern.toList.map Char.toLower) (text.toList.map Char.toLower)

end Matches

/-! ## Book::loadFromFile and Book::loadFromBookInfo -/

section Loading

variable {T : Type} [DecidableEq T]

/-- The constant `Book::AutoEncoding`. -/
def Book.AutoEncoding : String := "auto"

/-- The method `Book::createBook(file, id, encoding, language, title)`. -/
def Book.createBook (codes : List String) (file : ZLFile) (id : Int)
    (encoding language title : String) : Book T :=
  (((Book.new T file id).setEncoding encoding).setLanguage codes language).setTitle title

/-- Modelled from the spec: `FormatPlugin.h` is not among the sources; a plugin
provides `readMetaInfo(book) -> bool`, which fills in the book it is given. -/
structure FormatPlugin (T : Type) where
  readMetaInfo : Book T → Book T × Bool

/-- The method `Book::loadFromFile(const ZLFile &file)`; `none` is the null
result.  `plugin` is the lookup `PluginCollection::Instance().plugin(file, false)`,
`defaultLanguage` the value of `DefaultLanguageOption`; `stripWhiteSpaces` and
`fileNameToUtf8` are the helpers of `ZLStringUtil` and `ZLFile`, which are not
among the sources. -/
def Book.loadFromFile (plugin : ZLFile → Option (FormatPlugin T))
    (stripWhiteSpaces : String → String) (fileNameToUtf8 : String → String)
    (codes : List String) (defaultLanguage : String) (file : ZLFile) : Option (Book T) :=
  match plugin file with
  | none => none
  | some p =>
    match p.readMetaInfo (Book.new T file 0) with
    | (_, false) => none
    | (book, true) =>
      let bookTitle := stripWhiteSpaces book.myTitle
      let book := book.setTitle bookTitle
      let book :=
        if book.myTitle = "" then book.setTitle (fileNameToUtf8 file.displayName) else book
      let book := if book.myEncoding = "" then book.setEncoding Book.AutoEncoding else book
      let book :=
        if book.myLanguage = "" then book.setLanguage codes defaultLanguage else book
      some book

/-- The value `std::string::npos` of a `size_t` of `w` bits. -/
def npos (w : Nat) : Nat :=
  2 ^ w - 1

/-- The call `s.find(c, pos)` of `std::string`: the position of the first `c` at
or after `pos`, `npos` when there is none. -/
def stdFind (w : Nat) (s : String) (c : Char) (pos : Nat) : Nat :=
  let rest := s.toList.drop pos
  let skipped := (rest.takeWhile (fun x => decide (x ≠ c))).length
  if skipped < rest.length then pos + skipped else npos w

/-- The call `s.substr(pos, len)` of `std::string`: at most `len` characters from
`pos` on; `none` is the exception `out_of_range` for a `pos` beyond the end. -/
def stdSubstr (s : String) (pos len : Nat) : Option String :=
  if pos > s.length then none
  else some (String.mk ((s.toList.drop pos).take len))

/-- The loops `do { newIndex = list.find(',', index); call(list.substr(index,
newIndex - index)); index = newIndex + 1; } while (index != 0);` of
`Book::loadFromBookInfo`, with `size_t` arithmetic modulo `2 ^ w`.  `call` is
the call made on the book with the field (`addTag` or `addAuthor`); the loop is
run for at most `fuel` iterations, `none` when it has not ended by then or
`substr` throws. -/
def splitLoop {σ : Type} (w : Nat) (call : σ → String → σ) (list : String) :
    Nat → Nat → σ → Option σ
  | 0, _, _ => none
  | fuel + 1, index, book =>
    let newIndex := stdFind w list ',' index
    match stdSubstr list index ((newIndex + 2 ^ w - index) % 2 ^ w) with
    | none => none
    | some field =>
      let book := call book field
      let index := (newIndex + 1) % 2 ^ w
      if index ≠ 0 then splitLoop w call list fuel index book
      else some book

/-- Modelled from the spec: `BookInfo.h` is not among the sources; "a legacy
info-file reader providing string-valued options (title, language, encoding,
series title, index-in-series, comma-joined tags, comma-joined authors)". -/
structure BookInfo where
  EncodingOption : String
  LanguageOption : String
  TitleOption : String
  SeriesTitleOption : String
  IndexInSeriesOption : Int
  TagsOption : String
  AuthorDisplayNameOption : String

/-- The method `Book::loadFromBookInfo(const ZLFile &file)` on the options `info`
read for the file.  `getTagByFullName` is `Tag::getTagByFullName` and
`getAuthor` is `Author::getAuthor`, which are not among the sources; the sort
key of `addAuthor(displayName)` is the empty default. -/
def Book.loadFromBookInfo (w : Nat) (codes : List String) (defaultLanguage : String)
    (getTagByFullName : String → Option T) (getAuthor : String → String → Option Author)
    (fuel : Nat) (info : BookInfo) (file : ZLFile) : Option (Book T) :=
  let book : Book T :=
    Book.createBook codes file 0 info.EncodingOption info.LanguageOption info.TitleOption
  let book := book.setSeries info.SeriesTitleOption info.IndexInSeriesOption
  let book := if book.myLanguage = "" then book.setLanguage codes defaultLanguage else book
  let tagList := info.TagsOption
  let afterTags :=
    if tagList ≠ "" then
      splitLoop w (fun b field => (b.addTag (getTagByFullName field)).1) tagList fuel 0 book
    else some book
  match afterTags with
  | none => none
  | some book =>
    let authorList := info.AuthorDisplayNameOption
    if authorList ≠ "" then
      splitLoop w (fun b field => b.addAuthorByName getAuthor field "") authorList fuel 0 book
    else some book

end Loading

/-- Modelled from the spec: `Tag::getTagByFullName`; the full name is the
"dot-delimited path encoding a tag's position in its hierarchy". -/
def Tag.getTagByFullName (fullName : String) : Option Tag :=
  match (fullName.toList.splitOn '.').map String.mk with
  | [] => none
  | n :: ns => some (ns.foldl (fun p m => Tag.child p m) (Tag.root n))

/-- Modelled from the spec: `Author::getAuthor`; an author is "identified by
(display name, sort key) pair". -/
def Author.getAuthor (name sortKey : String) : Option Author :=
  some { name := name, sortKey := sortKey }

/-- The options of the example of the spec: `TagsOption` is "A,B,C". -/
def exampleInfo : BookInfo :=
  { EncodingOption := "utf-8", LanguageOption := "en", TitleOption := "Title",
    SeriesTitleOption := "", IndexInSeriesOption := 0, TagsOption := "A,B,C",
    AuthorDisplayNameOption := "J.R.R. Tolkien,C.S. Lewis" }

/-- The book of the example of the spec, "with author J.R.R. Tolkien". -/
def tolkienBook : Book Tag :=
  { Book.new Tag ⟨"/books/hobbit.fb2", "hobbit"⟩ 0 with
    myTitle := "The Hobbit",
    myAuthors := [some { name := "J.R.R. Tolkien", sortKey := "Tolkien" }],
    myTags := [some (.root "Fantasy")] }

/-- A plugin of the examples: it supplies the title "  Dune  " (or no title),
and leaves the encoding and the language empty. -/
def examplePlugin (title : String) : FormatPlugin Tag :=
  { readMetaInfo := fun book => (book.setTitle title, true) }

/-- A `stripWhiteSpaces` of the examples: blanks removed at both ends. -/
def exampleStrip (s : String) : String :=
  String.mk ((s.toList.dropWhile (fun c => decide (c = ' '))).reverse.dropWhile
    (fun c => decide (c = ' '))).reverse

/-! ## Lemmas -/

section Strings

lemma stdLess_iff (a b : String) : stdLess a b = true ↔ a < b := by
  unfold stdLess
  rw [decide_eq_true_iff, String.lt_iff_toList_lt]

lemma stdLess_irrefl (a : String) : stdLess a a = false := by
  rw [← Bool.not_eq_true, stdLess_iff]
  exact lt_irrefl a

lemma stdLess_trans {a b c : String} (h1 : stdLess a b = true) (h2 : stdLess b c = true) :
    stdLess a c = true := by
  rw [stdLess_iff] at *
  exact lt_trans h1 h2

lemma stdLess_asymm {a b : String} (h1 : stdLess a b = true) : stdLess b a = false := by
  rw [← Bool.not_eq_true]
  rw [stdLess_iff] at *
  exact lt_asymm h1

lemma stdLess_total {a b : String} (h1 : stdLess a b = false) (h2 : stdLess b a = false) :
    a = b := by
  rw [← Bool.not_eq_true, stdLess_iff] at h1 h2
  rcases lt_trichotomy a b with h | h | h
  · exact absurd h h1
  · exact h
  · exact absurd h h2

lemma lexLess_irrefl (p : List String) : lexLess p p = false := by
  induction p with
  | nil => rfl
  | cons a as ih => simp [lexLess, stdLess_irrefl, ih]

lemma lexLess_trans : ∀ (p q r : List String), lexLess p q = true → lexLess q r = true →
    lexLess p r = true := by
  intro p
  induction p with
  | nil =>
    intro q r h1 h2
    cases q with
    | nil => simp [lexLess] at h1
    | cons b bs =>
      cases r with
      | nil => simp [lexLess] at h2
      | cons c cs => rfl
  | cons a as ih =>
    intro q r h1 h2
    cases q with
    | nil => simp [lexLess] at h1
    | cons b bs =>
      cases r with
      | nil => simp [lexLess] at h2
      | cons c cs =>
        simp only [lexLess, Bool.or_eq_true, Bool.and_eq_true, decide_eq_true_eq] at h1 h2 ⊢
        rcases h1 with h1 | ⟨rfl, h1⟩
        · rcases h2 with h2 | ⟨rfl, h2⟩
          · exact Or.inl (stdLess_trans h1 h2)
          · exact Or.inl h1
        · rcases h2 with h2 | ⟨rfl, h2⟩
          · exact Or.inl h2
          · exact Or.inr ⟨rfl, ih _ _ h1 h2⟩

lemma lexLess_total : ∀ (p q : List String), lexLess p q = false → lexLess q p = false →
    p = q := by
  intro p
  induction p with
  | nil =>
    intro q h1 _
    cases q with
    | nil => rfl
    | cons b bs => simp [lexLess] at h1
  | cons a as ih =>
    intro q h1 h2
    cases q with
    | nil => simp [lexLess] at h2
    | cons b bs =>
      simp only [lexLess, Bool.or_eq_false_iff, Bool.and_eq_false_imp, decide_eq_true_eq] at h1 h2
      have hab : a = b := stdLess_total h1.1 h2.1
      subst hab
      rw [ih bs (h1.2 rfl) (h2.2 rfl)]

lemma lexLess_asymm {p q : List String} (h : lexLess p q = true) : lexLess q p = false := by
  cases h2 : lexLess q p
  · rfl
  · have := lexLess_trans p q p h h2
    rw [lexLess_irrefl] at this
    exact this.symm

end Strings

section TagModel

lemma Tag.path_ne_nil (t : Tag) : t.path ≠ [] := by
  cases t <;> simp [Tag.path]

lemma Tag.path_injective : ∀ (a b : Tag), a.path = b.path → a = b := by
  intro a
  induction a with
  | root n =>
    intro b h
    cases b with
    | root m => simp only [Tag.path, List.cons.injEq, and_true] at h; rw [h]
    | child q m =>
      exfalso
      simp only [Tag.path] at h
      have hlen := congrArg List.length h
      have hq : 0 < q.path.length := List.length_pos.mpr (Tag.path_ne_nil q)
      simp only [List.length_cons, List.length_nil, List.length_append] at hlen
      omega
  | child p n ih =>
    intro b h
    cases b with
    | root m =>
      exfalso
      simp only [Tag.path] at h
      have hlen := congrArg List.length h
      have hq : 0 < p.path.length := List.length_pos.mpr (Tag.path_ne_nil p)
      simp only [List.length_cons, List.length_nil, List.length_append] at hlen
      omega
    | child q m =>
      simp only [Tag.path] at h
      have h2 := List.append_inj' h rfl
      rw [ih q h2.1]
      simp only [List.cons.injEq, and_true] at h2
      rw [h2.2]

lemma Tag.key_injective (a b : Option Tag) (h : Tag.key a = Tag.key b) : a = b := by
  cases a with
  | none =>
    cases b with
    | none => rfl
    | some y => exact absurd h.symm (Tag.path_ne_nil y)
  | some x =>
    cases b with
    | none => exact absurd h (Tag.path_ne_nil x)
    | some y => rw [Tag.path_injective x y h]

lemma Tag.addressLess_isAddressOrder : IsAddressOrder Tag.addressLess where
  irrefl _ := lexLess_irrefl _
  trans _ _ _ := lexLess_trans _ _ _
  total a b h1 h2 := Tag.key_injective a b (lexLess_total _ _ h1 h2)

end TagModel

section SetLemmas

variable {P : Type}

/-- Ascending order of a `std::set` in its list form. -/
lemma mem_setInsert {lt : P → P → Bool} (hlt : IsAddressOrder lt) (x y : P) (s : List P) :
    y ∈ setInsert lt x s ↔ y = x ∨ y ∈ s := by
  induction s with
  | nil => simp [setInsert]
  | cons z zs ih =>
    rw [setInsert]
    cases h1 : lt x z
    · cases h2 : lt z x
      · have hxz : x = z := hlt.total x z h1 h2
        subst hxz
        simp
      · simp only [Bool.false_eq_true, if_false, if_true, List.mem_cons, ih]
        tauto
    · simp

lemma pairwise_setInsert {lt : P → P → Bool} (hlt : IsAddressOrder lt) (x : P) (s : List P)
    (hs : s.Pairwise (fun a b => lt a b = true)) :
    (setInsert lt x s).Pairwise (fun a b => lt a b = true) := by
  induction s with
  | nil => simp [setInsert]
  | cons z zs ih =>
    rw [setInsert]
    rw [List.pairwise_cons] at hs
    cases h1 : lt x z
    · cases h2 : lt z x
      · simp only [Bool.false_eq_true, if_false]
        exact List.pairwise_cons.mpr hs
      · simp only [Bool.false_eq_true, if_false, if_true]
        rw [List.pairwise_cons]
        refine ⟨?_, ih hs.2⟩
        intro a ha
        rcases (mem_setInsert hlt x a zs).mp ha with rfl | ha
        · exact h2
        · exact hs.1 a ha
    · simp only [if_true]
      rw [List.pairwise_cons]
      refine ⟨?_, List.pairwise_cons.mpr hs⟩
      intro a ha
      rcases List.mem_cons.mp ha with rfl | ha
      · exact h1
      · exact hlt.trans _ _ _ h1 (hs.1 a ha)

lemma nodup_of_ascending {lt : P → P → Bool} (hlt : IsAddressOrder lt) (s : List P)
    (hs : s.Pairwise (fun a b => lt a b = true)) : s.Nodup := by
  refine List.Pairwise.imp ?_ hs
  intro a b hab e
  subst e
  rw [hlt.irrefl] at hab
  exact Bool.false_ne_true hab

lemma mem_setInsertRange {lt : P → P → Bool} (hlt : IsAddressOrder lt) (range : List P) :
    ∀ (s : List P) (y : P), y ∈ setInsertRange lt range s ↔ y ∈ range ∨ y ∈ s := by
  induction range with
  | nil => intro s y; simp [setInsertRange]
  | cons x xs ih =>
    intro s y
    have := ih (setInsert lt x s) y
    simp only [setInsertRange, List.foldl_cons] at this ⊢
    rw [this, mem_setInsert hlt, List.mem_cons]
    tauto

lemma pairwise_setInsertRange {lt : P → P → Bool} (hlt : IsAddressOrder lt) (range : List P) :
    ∀ (s : List P), s.Pairwise (fun a b => lt a b = true) →
      (setInsertRange lt range s).Pairwise (fun a b => lt a b = true) := by
  induction range with
  | nil => intro s hs; simpa [setInsertRange] using hs
  | cons x xs ih =>
    intro s hs
    have := ih (setInsert lt x s) (pairwise_setInsert hlt x s hs)
    simpa only [setInsertRange, List.foldl_cons] using this

lemma nodup_assignFirst [DecidableEq P] (a b : P) (l : List P) (hl : l.Nodup) (hb : b ∉ l) :
    (assignFirst a b l).Nodup := by
  induction l with
  | nil => simp [assignFirst]
  | cons x xs ih =>
    rw [List.nodup_cons] at hl
    rw [List.mem_cons, not_or] at hb
    unfold assignFirst
    by_cases h : x = a
    · simp only [h, if_true]
      exact List.nodup_cons.mpr ⟨hb.2, hl.2⟩
    · simp only [h, if_false]
      refine List.nodup_cons.mpr ⟨?_, ih hl.2 hb.2⟩
      intro hx
      have hsub : ∀ (l : List P) (y : P), y ∈ assignFirst a b l → y = b ∨ y ∈ l := by
        intro l
        induction l with
        | nil => intro y hy; simp [assignFirst] at hy
        | cons z zs ihz =>
          intro y hy
          unfold assignFirst at hy
          by_cases hz : z = a
          · simp only [hz, if_true, List.mem_cons] at hy
            rcases hy with rfl | hy
            · exact Or.inl rfl
            · exact Or.inr (List.mem_cons_of_mem _ hy)
          · simp only [hz, if_false, List.mem_cons] at hy
            rcases hy with rfl | hy
            · exact Or.inr (List.mem_cons_self _ _)
            · rcases ihz y hy with h1 | h1
              · exact Or.inl h1
              · exact Or.inr (List.mem_cons_of_mem _ h1)
      rcases hsub xs x hx with h1 | h1
      · exact hb.1 h1.symm
      · exact hl.1 h1

end SetLemmas

section RenameClone

variable {T : Type} [DecidableEq T]

/-- The set built by the loop of `renameTag` stays in ascending order. -/
lemma renameTagLoop_ascending (cloneSubTag : Option T → Option T → Option T → Option T)
    {lt : Option T → Option T → Bool} (hlt : IsAddressOrder lt) (from_ to_ : Option T)
    (l : List (Option T)) : ∀ (s : List (Option T)) (c : Bool),
    s.Pairwise (fun a b => lt a b = true) →
    (renameTagLoop cloneSubTag lt from_ to_ l s c).1.Pairwise (fun a b => lt a b = true) := by
  induction l with
  | nil => intro s c hs; simpa [renameTagLoop] using hs
  | cons x rest ih =>
    intro s c hs
    rw [renameTagLoop]
    dsimp only
    split_ifs
    · exact ih _ _ (pairwise_setInsert hlt _ _ hs)
    · exact ih _ _ (pairwise_setInsert hlt _ _ hs)
    · exact ih _ _ (pairwise_setInsert hlt _ _ hs)

/-- The set built by the loop of `renameTag`: what was in it and the images of
the elements the loop has gone through. -/
lemma mem_renameTagLoop (cloneSubTag : Option T → Option T → Option T → Option T)
    {lt : Option T → Option T → Bool} (hlt : IsAddressOrder lt) (from_ to_ : Option T)
    (l : List (Option T)) : ∀ (s : List (Option T)) (c : Bool) (y : Option T),
    y ∈ (renameTagLoop cloneSubTag lt from_ to_ l s c).1 ↔
      y ∈ s ∨ y ∈ l.map (fun x =>
        if x = from_ then to_
        else if (cloneSubTag x from_ to_).isNone then x else cloneSubTag x from_ to_) := by
  induction l with
  | nil => intro s c y; simp [renameTagLoop]
  | cons x rest ih =>
    intro s c y
    rw [renameTagLoop]
    dsimp only
    split_ifs with h1 h2
    · rw [ih, mem_setInsert hlt]
      simp only [List.map_cons, List.mem_cons, h1, if_true]
      tauto
    · rw [ih, mem_setInsert hlt]
      simp only [List.map_cons, List.mem_cons, h1, h2, if_true, if_false]
      tauto
    · rw [ih, mem_setInsert hlt]
      simp only [List.map_cons, List.mem_cons, h1, h2, if_false]
      tauto

/-- The flag `changed` after the loop of `renameTag`. -/
lemma renameTagLoop_changed (cloneSubTag : Option T → Option T → Option T → Option T)
    (lt : Option T → Option T → Bool) (from_ to_ : Option T)
    (l : List (Option T)) : ∀ (s : List (Option T)) (c : Bool),
    (renameTagLoop cloneSubTag lt from_ to_ l s c).2 =
      (c || l.any (fun x => decide (x = from_) || !(cloneSubTag x from_ to_).isNone)) := by
  induction l with
  | nil => intro s c; simp [renameTagLoop]
  | cons x rest ih =>
    intro s c
    rw [renameTagLoop]
    dsimp only
    by_cases h1 : x = from_
    · simp [h1, ih]
    · cases hcl : cloneSubTag x from_ to_ <;> simp [h1, ih, hcl]

/-- The set built by the loop of `cloneTag` stays in ascending order. -/
lemma cloneTagLoop_ascending (cloneSubTag : Option T → Option T → Option T → Option T)
    {lt : Option T → Option T → Bool} (hlt : IsAddressOrder lt) (from_ to_ : Option T)
    (l : List (Option T)) : ∀ (s : List (Option T)),
    s.Pairwise (fun a b => lt a b = true) →
    (cloneTagLoop cloneSubTag lt from_ to_ l s).Pairwise (fun a b => lt a b = true) := by
  induction l with
  | nil => intro s hs; simpa [cloneTagLoop] using hs
  | cons x rest ih =>
    intro s hs
    rw [cloneTagLoop]
    dsimp only
    split_ifs
    · exact ih _ (pairwise_setInsert hlt _ _ hs)
    · exact ih _ (pairwise_setInsert hlt _ _ hs)
    · exact ih _ hs

/-- The set built by the loop of `cloneTag`: what was in it, `to` when `from`
was met, and the non-null clones of the other elements. -/
lemma mem_cloneTagLoop (cloneSubTag : Option T → Option T → Option T → Option T)
    {lt : Option T → Option T → Bool} (hlt : IsAddressOrder lt) (from_ to_ : Option T)
    (l : List (Option T)) : ∀ (s : List (Option T)) (y : Option T),
    y ∈ cloneTagLoop cloneSubTag lt from_ to_ l s ↔
      y ∈ s ∨ (y = to_ ∧ from_ ∈ l) ∨
        (∃ x ∈ l, x ≠ from_ ∧ (cloneSubTag x from_ to_).isNone = false ∧
          y = cloneSubTag x from_ to_) := by
  induction l with
  | nil => intro s y; simp [cloneTagLoop]
  | cons x rest ih =>
    intro s y
    rw [cloneTagLoop]
    dsimp only
    split_ifs with h1 h2
    · rw [ih, mem_setInsert hlt]
      subst h1
      simp only [List.mem_cons, true_or, and_true, exists_eq_or_imp, ne_eq, not_true_eq_false,
        false_and, false_or]
      tauto
    · rw [ih, mem_setInsert hlt]
      have h1' : ¬ from_ = x := fun e => h1 e.symm
      simp only [Bool.not_eq_true', ne_eq] at h2 ⊢
      simp only [List.mem_cons, h1', false_or, exists_eq_or_imp, h1, not_false_eq_true, h2,
        true_and]
      tauto
    · rw [ih]
      have h1' : ¬ from_ = x := fun e => h1 e.symm
      simp only [Bool.not_eq_true', Bool.not_eq_false, ne_eq] at h2 ⊢
      simp only [List.mem_cons, h1', false_or, exists_eq_or_imp, h1, not_false_eq_true, h2,
        true_and, Bool.true_eq_false, false_and]

end RenameClone

section CloneModel

lemma Tag.length_path (t : Tag) : t.path.length = t.level + 1 := by
  induction t with
  | root n => rfl
  | child p n ih => simp [Tag.path, Tag.level, ih]

/-- An ancestor is on a strictly lower level. -/
lemma Tag.level_lt_of_hasAncestor (o : Tag) : ∀ (t : Tag), t.hasAncestor o = true →
    o.level < t.level := by
  intro t
  induction t with
  | root n => intro h; simp [Tag.hasAncestor] at h
  | child p n ih =>
    intro h
    simp only [Tag.hasAncestor, Bool.or_eq_true, decide_eq_true_eq] at h
    rcases h with rfl | h
    · simp [Tag.level]
    · have := ih h
      simp only [Tag.level]
      omega

/-- The model of `cloneSubTag` gives a clone exactly for the strict descendants of `oldparent`. -/
lemma Tag.cloneUnder_isSome (o : Tag) (np : Option Tag) : ∀ (t : Tag),
    (Tag.cloneUnder o np t).isSome = t.hasAncestor o := by
  intro t
  induction t with
  | root n => rfl
  | child p n ih =>
    simp only [Tag.cloneUnder, Tag.hasAncestor]
    by_cases h : p = o
    · simp [h]
    · simp [h, ih]

/-- The clone has below `newparent` the names the tag has below `oldparent`. -/
lemma Tag.path_cloneUnder (o : Tag) (np : Option Tag) : ∀ (t c : Tag),
    Tag.cloneUnder o np t = some c →
    c.path = Tag.key np ++ t.path.drop o.path.length := by
  intro t
  induction t with
  | root n => intro c h; simp [Tag.cloneUnder] at h
  | child p n ih =>
    intro c h
    simp only [Tag.cloneUnder] at h
    by_cases hp : p = o
    · subst hp
      simp only [if_true, Option.some.injEq] at h
      subst h
      cases np <;> simp [Tag.getTag, Tag.path, Tag.key]
    · simp only [hp, if_false, Option.map_eq_some'] at h
      obtain ⟨q, hq, rfl⟩ := h
      have hanc : p.hasAncestor o = true := by
        rw [← Tag.cloneUnder_isSome o np p, hq]; rfl
      have hlev := Tag.level_lt_of_hasAncestor o p hanc
      have hlen : o.path.length ≤ p.path.length := by
        rw [Tag.length_path, Tag.length_path]; omega
      simp only [Tag.path, ih q hq, List.drop_append_of_le_length hlen, List.append_assoc]

lemma Tag.cloneSubTag_isNone (x : Option Tag) (f : Tag) (to_ : Option Tag) :
    (Tag.cloneSubTag x (some f) to_).isNone = !f.isAncestorOf x := by
  cases x with
  | none => rfl
  | some t =>
    simp only [Tag.cloneSubTag, Tag.isAncestorOf, ← Tag.cloneUnder_isSome f to_ t]
    cases Tag.cloneUnder f to_ t <;> rfl

lemma Tag.cloneSubTag_null_oldparent (x to_ : Option Tag) :
    Tag.cloneSubTag x none to_ = none := by
  cases x <;> rfl

end CloneModel

/-! ## Book::addTag -/

section AddTag

variable {T : Type} [DecidableEq T]

/-- C1: `addTag` is idempotent.  For every book and tag, the second of two calls
`addTag(t)` returns false and leaves the book (so the tag list) exactly as the
first call left it, and the two calls together lengthen the list by at most one. -/
theorem addTag_idempotent (book : Book T) (t : Option T) :
    (book.addTag t).1.addTag t = ((book.addTag t).1, false) ∧
    ((book.addTag t).1.addTag t).1.myTags.length ≤ book.myTags.length + 1 := by
  unfold Book.addTag
  cases t with
  | none => simp
  | some t =>
    by_cases h : some t ∈ book.myTags <;> simp [h]

/-- C2: `addTag(t)` returns false and leaves the tag list unchanged if and only
if `t` is null or already in the list; otherwise it returns true and the new
list is the old one with `t` appended at the end. -/
theorem addTag_spec (book : Book T) (t : Option T) :
    (((book.addTag t).2 = false ∧ (book.addTag t).1.myTags = book.myTags) ↔
      (t = none ∨ t ∈ book.myTags)) ∧
    (¬ (t = none ∨ t ∈ book.myTags) →
      (book.addTag t).2 = true ∧ (book.addTag t).1.myTags = book.myTags ++ [t]) := by
  unfold Book.addTag
  cases t with
  | none => simp
  | some t =>
    by_cases h : some t ∈ book.myTags <;> simp [h]

end AddTag

/-! ## Book::removeTag -/

section RemoveTag

variable {T : Type} [DecidableEq T]

/-- With a non-null `tag` the test of `removeTag` never dereferences null. -/
lemma removeTagTest_some (isAncestorOf : T → Option T → Bool) (t : T) (incl : Bool)
    (x : Option T) :
    removeTagTest isAncestorOf (some t) incl x =
      some (decide (x = some t) || (incl && isAncestorOf t x)) := by
  unfold removeTagTest
  by_cases h : some t = x
  · subst h; simp
  · have h2 : ¬ x = some t := fun e => h e.symm
    cases incl <;> simp [h, h2]

/-- The loop of `removeTag` keeps the elements that fail the test, in order, and
reports whether some element passed it. -/
lemma removeTagLoop_some (isAncestorOf : T → Option T → Bool) (t : T) (incl : Bool)
    (todo : List (Option T)) : ∀ (done : List (Option T)) (changed : Bool),
    removeTagLoop isAncestorOf (some t) incl done changed todo =
      some (done ++ todo.filter
              (fun x => !(decide (x = some t) || (incl && isAncestorOf t x))),
            changed || todo.any
              (fun x => decide (x = some t) || (incl && isAncestorOf t x))) := by
  induction todo with
  | nil => intro done changed; simp [removeTagLoop]
  | cons x rest ih =>
    intro done changed
    rw [removeTagLoop, removeTagTest_some]
    cases hc : (decide (x = some t) || (incl && isAncestorOf t x))
    · simp only [ih, List.filter_cons, hc, List.any_cons]
      simp
    · simp only [ih, List.filter_cons, hc, List.any_cons]
      simp

/-- The result of `removeTag` with a non-null tag, in closed form. -/
lemma removeTag_some (isAncestorOf : T → Option T → Bool) (book : Book T) (t : T)
    (incl : Bool) :
    book.removeTag isAncestorOf (some t) incl =
      some ({ book with
              myTags := List.filter
                (fun x => !(decide (x = some t) || (incl && isAncestorOf t x))) book.myTags },
            book.myTags.any
              (fun x => decide (x = some t) || (incl && isAncestorOf t x))) := by
  unfold Book.removeTag
  rw [removeTagLoop_some]
  simp

/-- C3: for every tag list and non-null tag `t`, `removeTag(t, true)` returns
and leaves exactly the tags of the old list that are neither equal to `t` nor
descendants of `t` (`t.isAncestorOf`), and `removeTag(t, false)` leaves exactly
the old tags not equal to `t`; the kept tags keep their order and multiplicity. -/
theorem removeTag_spec (isAncestorOf : T → Option T → Bool) (book : Book T) (t : T) :
    (∃ r, book.removeTag isAncestorOf (some t) true = some r ∧
      r.1.myTags = book.myTags.filter
        (fun x => decide (x ≠ some t) && !isAncestorOf t x)) ∧
    (∃ r, book.removeTag isAncestorOf (some t) false = some r ∧
      r.1.myTags = book.myTags.filter (fun x => decide (x ≠ some t))) := by
  constructor
  · refine ⟨_, removeTag_some isAncestorOf book t true, ?_⟩
    show List.filter _ book.myTags = List.filter _ book.myTags
    congr 1
    funext x
    simp
  · refine ⟨_, removeTag_some isAncestorOf book t false, ?_⟩
    show List.filter _ book.myTags = List.filter _ book.myTags
    congr 1
    funext x
    simp

end RemoveTag

/-! ## The tag list has no duplicates -/

section Invariant

variable {T : Type} [DecidableEq T]

/-- The `includeSubTags` branch of `renameTag` in terms of its loop. -/
lemma renameTag_true_eq (cloneSubTag : Option T → Option T → Option T → Option T)
    (lt : Option T → Option T → Bool) (book : Book T) (from_ to_ : Option T) :
    book.renameTag cloneSubTag lt from_ to_ true =
      if (renameTagLoop cloneSubTag lt from_ to_ book.myTags [] false).2 = true then
        ({ book with
            myTags := (renameTagLoop cloneSubTag lt from_ to_ book.myTags [] false).1 }, true)
      else (book, false) := by
  unfold Book.renameTag
  simp only [if_true]
  generalize renameTagLoop cloneSubTag lt from_ to_ book.myTags [] false = r
  rcases r with ⟨s, c⟩
  cases c <;> simp

lemma nodup_push_back {P : Type} (l : List P) (t : P) (h : l.Nodup) (ht : t ∉ l) :
    (l ++ [t]).Nodup := by
  rw [List.nodup_append]
  refine ⟨h, List.nodup_singleton t, ?_⟩
  intro a ha hb
  rw [List.mem_singleton] at hb
  subst hb
  exact ht ha

lemma addTag_nodup (book : Book T) (t : Option T) (h : book.myTags.Nodup) :
    (book.addTag t).1.myTags.Nodup := by
  unfold Book.addTag
  by_cases h1 : t.isNone = true
  · simpa [h1] using h
  · by_cases h2 : t ∈ book.myTags
    · simpa [h1, h2] using h
    · simpa [h1, h2] using nodup_push_back _ _ h h2

lemma renameTag_nodup (cloneSubTag : Option T → Option T → Option T → Option T)
    {lt : Option T → Option T → Bool} (hlt : IsAddressOrder lt) (book : Book T)
    (from_ to_ : Option T) (incl : Bool) (h : book.myTags.Nodup) :
    (book.renameTag cloneSubTag lt from_ to_ incl).1.myTags.Nodup := by
  cases incl with
  | true =>
    rw [renameTag_true_eq]
    split_ifs
    · exact nodup_of_ascending hlt _
        (renameTagLoop_ascending cloneSubTag hlt from_ to_ _ _ _ List.Pairwise.nil)
    · exact h
  | false =>
    unfold Book.renameTag
    by_cases h1 : from_ ∈ book.myTags
    · by_cases h2 : to_ ∈ book.myTags
      · simpa [h1, h2] using h.erase _
      · simpa [h1, h2] using nodup_assignFirst _ _ _ h h2
    · simpa [h1] using h

lemma cloneTag_nodup (cloneSubTag : Option T → Option T → Option T → Option T)
    {lt : Option T → Option T → Bool} (hlt : IsAddressOrder lt) (book : Book T)
    (from_ to_ : Option T) (incl : Bool) (h : book.myTags.Nodup) :
    (book.cloneTag cloneSubTag lt from_ to_ incl).1.myTags.Nodup := by
  cases incl with
  | true =>
    unfold Book.cloneTag
    simp only [if_true]
    split_ifs
    · exact nodup_of_ascending hlt _
        (pairwise_setInsertRange hlt _ _
          (cloneTagLoop_ascending cloneSubTag hlt from_ to_ _ _ List.Pairwise.nil))
    · exact h
  | false =>
    unfold Book.cloneTag
    by_cases h1 : from_ ∈ book.myTags
    · by_cases h2 : to_ ∈ book.myTags
      · simpa [h1, h2] using h
      · simpa [h1, h2] using nodup_push_back _ _ h h2
    · simpa [h1] using h

/-- One tag operation with non-null arguments returns and keeps the tag list free of duplicates. -/
lemma applyTagOp_nodup (isAncestorOf : T → Option T → Bool)
    (cloneSubTag : Option T → Option T → Option T → Option T)
    {lt : Option T → Option T → Bool} (hlt : IsAddressOrder lt) (book : Book T)
    (h : book.myTags.Nodup) (op : TagOp T) :
    ∃ b, book.applyTagOp isAncestorOf cloneSubTag lt op = some b ∧ b.myTags.Nodup := by
  cases op with
  | addTag tag => exact ⟨_, rfl, addTag_nodup book _ h⟩
  | removeTag tag incl =>
    simp only [Book.applyTagOp, removeTag_some, Option.map_some']
    exact ⟨_, rfl, h.filter _⟩
  | renameTag from_ to_ incl => exact ⟨_, rfl, renameTag_nodup cloneSubTag hlt book _ _ _ h⟩
  | cloneTag from_ to_ incl => exact ⟨_, rfl, cloneTag_nodup cloneSubTag hlt book _ _ _ h⟩
  | removeAllTags => exact ⟨_, rfl, List.nodup_nil⟩

lemma applyTagOps_nodup (isAncestorOf : T → Option T → Bool)
    (cloneSubTag : Option T → Option T → Option T → Option T)
    {lt : Option T → Option T → Bool} (hlt : IsAddressOrder lt) (ops : List (TagOp T)) :
    ∀ (book : Book T), book.myTags.Nodup →
    ∃ b, Book.applyTagOps isAncestorOf cloneSubTag lt book ops = some b ∧ b.myTags.Nodup := by
  induction ops with
  | nil => intro book h; exact ⟨book, rfl, h⟩
  | cons op ops ih =>
    intro book h
    obtain ⟨b, hb, hn⟩ := applyTagOp_nodup isAncestorOf cloneSubTag hlt book h op
    obtain ⟨b2, hb2, hn2⟩ := ih b hn
    exact ⟨b2, by rw [Book.applyTagOps, hb]; exact hb2, hn2⟩

/-- C4: the tag list of a book never contains the same tag twice.  A new book
has an empty tag list; each tag operation (`addTag`, `removeTag`, `renameTag`
and `cloneTag` in both `includeSubTags` modes, `removeAllTags`) called with
non-null arguments on a book whose list is duplicate-free returns and leaves a
duplicate-free list; so does every sequence of such calls on a new book. -/
theorem tags_nodup_invariant (isAncestorOf : T → Option T → Bool)
    (cloneSubTag : Option T → Option T → Option T → Option T)
    (lt : Option T → Option T → Bool) (hlt : IsAddressOrder lt) :
    (∀ (file : ZLFile) (id : Int), (Book.new T file id).myTags = []) ∧
    (∀ (book : Book T) (op : TagOp T), book.myTags.Nodup →
      ∃ b, book.applyTagOp isAncestorOf cloneSubTag lt op = some b ∧ b.myTags.Nodup) ∧
    (∀ (file : ZLFile) (id : Int) (ops : List (TagOp T)),
      ∃ b, Book.applyTagOps isAncestorOf cloneSubTag lt (Book.new T file id) ops = some b ∧
        b.myTags.Nodup) :=
  ⟨fun _ _ => rfl,
   fun book op h => applyTagOp_nodup isAncestorOf cloneSubTag hlt book h op,
   fun file id ops =>
     applyTagOps_nodup isAncestorOf cloneSubTag hlt ops (Book.new T file id) List.nodup_nil⟩

end Invariant

/-- Witness of C4 on the model of `Tag`: a sequence of calls on a new book. -/
theorem tags_nodup_invariant_witness :
    IsAddressOrder Tag.addressLess ∧
    ∃ b, Book.applyTagOps Tag.isAncestorOf Tag.cloneSubTag Tag.addressLess
        (Book.new Tag ⟨"/books/a.fb2", "a"⟩ 0)
        [.addTag (.root "Fiction"), .addTag (.child (.root "Fiction") "SciFi"),
         .addTag (.root "Fiction"), .cloneTag (.root "Fiction") (.root "Genre") true,
         .renameTag (.root "Genre") (.root "Fiction") false,
         .removeTag (.root "Fiction") false] = some b ∧ b.myTags.Nodup :=
  ⟨Tag.addressLess_isAddressOrder,
   (tags_nodup_invariant Tag.isAncestorOf Tag.cloneSubTag Tag.addressLess
      Tag.addressLess_isAddressOrder).2.2 _ _ _⟩

/-! ## Book::renameTag -/

section RenameTag

/-- The flag returned by `renameTag(from, to, true)`. -/
lemma renameTag_true_snd {T : Type} [DecidableEq T]
    (cloneSubTag : Option T → Option T → Option T → Option T)
    (lt : Option T → Option T → Bool) (book : Book T) (from_ to_ : Option T) :
    (book.renameTag cloneSubTag lt from_ to_ true).2 =
      book.myTags.any (fun x => decide (x = from_) || !(cloneSubTag x from_ to_).isNone) := by
  rw [renameTag_true_eq]
  have h := renameTagLoop_changed cloneSubTag lt from_ to_ book.myTags [] false
  rw [Bool.false_or] at h
  split_ifs with hc
  · rw [← h, hc]
  · rw [← h]
    simpa using hc

/-- C5: for every tag list and non-null tags `from`, `to`, on the model of `Tag`
and for every address order of the handles:
`renameTag(from, to, true)` returns true iff some tag of the list equals `from`
or is a strict descendant of `from`; then the tags of the resulting list are
exactly the images of the tags of the old list under the map sending `from` to
`to`, a strict descendant of `from` to its clone under `to`, and every other
tag to itself; the clone of a strict descendant has below `to` the names that
the tag has below `from`; and when the call returns false the book is unchanged. -/
theorem renameTag_includeSubTags_spec (lt : Option Tag → Option Tag → Bool)
    (hlt : IsAddressOrder lt) (book : Book Tag) (from_ to_ : Tag) :
    ((book.renameTag Tag.cloneSubTag lt (some from_) (some to_) true).2 = true ↔
      ∃ x ∈ book.myTags, x = some from_ ∨ from_.isAncestorOf x = true) ∧
    ((book.renameTag Tag.cloneSubTag lt (some from_) (some to_) true).2 = true →
      ∀ y, y ∈ (book.renameTag Tag.cloneSubTag lt (some from_) (some to_) true).1.myTags ↔
        y ∈ book.myTags.map (fun x =>
          if x = some from_ then some to_
          else if from_.isAncestorOf x = true then Tag.cloneSubTag x (some from_) (some to_)
          else x)) ∧
    (∀ x : Tag, from_.isAncestorOf (some x) = true →
      ∃ c : Tag, Tag.cloneSubTag (some x) (some from_) (some to_) = some c ∧
        c.path = to_.path ++ x.path.drop from_.path.length) ∧
    ((book.renameTag Tag.cloneSubTag lt (some from_) (some to_) true).2 = false →
      (book.renameTag Tag.cloneSubTag lt (some from_) (some to_) true).1 = book) := by
  refine ⟨?_, ?_, ?_, ?_⟩
  · rw [renameTag_true_snd, List.any_eq_true]
    simp only [Tag.cloneSubTag_isNone, Bool.not_not, Bool.or_eq_true, decide_eq_true_eq]
  · intro hc y
    rw [renameTag_true_eq] at hc ⊢
    split_ifs at hc ⊢ with h
    show y ∈ (renameTagLoop Tag.cloneSubTag lt (some from_) (some to_)
      book.myTags [] false).1 ↔ _
    rw [mem_renameTagLoop Tag.cloneSubTag hlt]
    simp only [List.not_mem_nil, false_or, Tag.cloneSubTag_isNone, Bool.not_eq_true']
    constructor
    · intro hy
      obtain ⟨x, hx, rfl⟩ := List.mem_map.mp hy
      refine List.mem_map.mpr ⟨x, hx, ?_⟩
      cases from_.isAncestorOf x <;> simp
    · intro hy
      obtain ⟨x, hx, rfl⟩ := List.mem_map.mp hy
      refine List.mem_map.mpr ⟨x, hx, ?_⟩
      cases from_.isAncestorOf x <;> simp
  · intro x hx
    have hsome : (Tag.cloneUnder from_ (some to_) x).isSome = true := by
      rw [Tag.cloneUnder_isSome]; exact hx
    obtain ⟨c, hc⟩ := Option.isSome_iff_exists.mp hsome
    exact ⟨c, hc, Tag.path_cloneUnder from_ (some to_) x c hc⟩
  · intro hc
    rw [renameTag_true_eq] at hc ⊢
    split_ifs at hc ⊢ with h
    rfl

/-- Witness of C5: the example of the spec.  Renaming Fiction to Genre in a book
tagged Fiction, Fiction.SciFi, History returns true and leaves the tags Genre,
Genre.SciFi and History. -/
theorem renameTag_includeSubTags_spec_witness :
    IsAddressOrder Tag.addressLess ∧
    (exampleBook.renameTag Tag.cloneSubTag Tag.addressLess
        (some (.root "Fiction")) (some (.root "Genre")) true).2 = true ∧
    ∀ y, y ∈ (exampleBook.renameTag Tag.cloneSubTag Tag.addressLess
        (some (.root "Fiction")) (some (.root "Genre")) true).1.myTags ↔
      y ∈ [some (Tag.root "Genre"), some (.child (.root "Genre") "SciFi"),
           some (.root "History")] := by
  have h := renameTag_includeSubTags_spec Tag.addressLess Tag.addressLess_isAddressOrder
    exampleBook (.root "Fiction") (.root "Genre")
  have hc := h.1.mpr ⟨some (.root "Fiction"), by decide, Or.inl rfl⟩
  refine ⟨Tag.addressLess_isAddressOrder, hc, ?_⟩
  intro y
  rw [h.2.1 hc y]
  exact Iff.rfl

end RenameTag

section RenameAbsent

/-- C6: renaming a tag that the book does not have is a no-op signalled by
false.  For every tag list that contains neither `from` nor (when
`includeSubTags` is true) any descendant of `from`, `renameTag(from, to,
includeSubTags)` returns false and leaves the book unchanged, so the tag list
stays the same element for element and in order. -/
theorem renameTag_absent (lt : Option Tag → Option Tag → Bool) (book : Book Tag)
    (from_ to_ : Option Tag) (includeSubTags : Bool)
    (hfrom : from_ ∉ book.myTags)
    (hsub : includeSubTags = true →
      ∀ f, from_ = some f → ∀ x ∈ book.myTags, f.isAncestorOf x = false) :
    book.renameTag Tag.cloneSubTag lt from_ to_ includeSubTags = (book, false) := by
  cases includeSubTags with
  | false =>
    unfold Book.renameTag
    simp [hfrom]
  | true =>
    have hflag : (book.renameTag Tag.cloneSubTag lt from_ to_ true).2 = false := by
      rw [renameTag_true_snd, List.any_eq_false]
      intro x hx
      have hne : ¬ x = from_ := fun e => hfrom (e ▸ hx)
      cases from_ with
      | none => simp [hne, Tag.cloneSubTag_null_oldparent]
      | some f => simp [hne, Tag.cloneSubTag_isNone, hsub rfl f rfl x hx]
    rw [renameTag_true_eq] at hflag ⊢
    split_ifs at hflag ⊢ with h
    rfl

/-- Witness of C6: the book tagged Fiction, Fiction.SciFi, History has neither
the tag Poetry nor a descendant of it. -/
theorem renameTag_absent_witness :
    some (Tag.root "Poetry") ∉ exampleBook.myTags ∧
    exampleBook.renameTag Tag.cloneSubTag Tag.addressLess
        (some (.root "Poetry")) (some (.root "Genre")) true = (exampleBook, false) := by
  have hfrom : some (Tag.root "Poetry") ∉ exampleBook.myTags := by decide
  refine ⟨hfrom, renameTag_absent Tag.addressLess exampleBook _ _ true hfrom ?_⟩
  intro _ f hf
  cases hf
  decide

end RenameAbsent

/-! ## Book::cloneTag -/

section CloneTag

/-- C7: `cloneTag` is additive, on the model of `Tag` and for every address
order of the handles.  For every tag list, tags `from`, `to` and either value of
`includeSubTags`, every tag of the list before the call is in the list after
it; and a tag of the list after the call was in the list before, or is `to`
with `from` in the list before, or (with `includeSubTags`) is the clone under
`to` of a strict descendant of `from` that was in the list before. -/
theorem cloneTag_additive (lt : Option Tag → Option Tag → Bool) (hlt : IsAddressOrder lt)
    (book : Book Tag) (from_ to_ : Option Tag) (includeSubTags : Bool) :
    (∀ x ∈ book.myTags,
      x ∈ (book.cloneTag Tag.cloneSubTag lt from_ to_ includeSubTags).1.myTags) ∧
    (∀ y ∈ (book.cloneTag Tag.cloneSubTag lt from_ to_ includeSubTags).1.myTags,
      y ∈ book.myTags ∨ (y = to_ ∧ from_ ∈ book.myTags) ∨
      (includeSubTags = true ∧ ∃ f x, from_ = some f ∧ x ∈ book.myTags ∧
        f.isAncestorOf x = true ∧ y = Tag.cloneSubTag x from_ to_)) := by
  cases includeSubTags with
  | false =>
    unfold Book.cloneTag
    by_cases h1 : from_ ∈ book.myTags
    · by_cases h2 : to_ ∈ book.myTags
      · simp only [Bool.false_eq_true, if_false, h1, h2, if_true, not_true_eq_false]
        exact ⟨fun x hx => hx, fun y hy => Or.inl hy⟩
      · simp only [Bool.false_eq_true, if_false, h1, h2, if_true, not_false_eq_true,
          List.mem_append, List.mem_singleton, and_true, false_and, or_false]
        exact ⟨fun x hx => Or.inl hx, fun y hy => hy⟩
    · simp only [Bool.false_eq_true, if_false, h1]
      exact ⟨fun x hx => hx, fun y hy => Or.inl hy⟩
  | true =>
    unfold Book.cloneTag
    simp only [if_true]
    split_ifs with hne
    · constructor
      · intro x hx
        show x ∈ setInsertRange lt book.myTags _
        rw [mem_setInsertRange hlt]
        exact Or.inl hx
      · intro y hy
        change y ∈ setInsertRange lt book.myTags _ at hy
        rw [mem_setInsertRange hlt, mem_cloneTagLoop Tag.cloneSubTag hlt] at hy
        rcases hy with hy | hy | hy | ⟨x, hx, hxf, hcl, rfl⟩
        · exact Or.inl hy
        · simp at hy
        · exact Or.inr (Or.inl hy)
        · refine Or.inr (Or.inr ⟨trivial, ?_⟩)
          cases from_ with
          | none => simp [Tag.cloneSubTag_null_oldparent] at hcl
          | some f =>
            rw [Tag.cloneSubTag_isNone] at hcl
            exact ⟨f, x, rfl, hx, by simpa using hcl, rfl⟩
    · exact ⟨fun x hx => hx, fun y hy => Or.inl hy⟩

/-- Witness of C7: cloning Fiction to Genre in the book tagged Fiction,
Fiction.SciFi, History keeps the tag History. -/
theorem cloneTag_additive_witness :
    IsAddressOrder Tag.addressLess ∧
    some (Tag.root "History") ∈ (exampleBook.cloneTag Tag.cloneSubTag Tag.addressLess
        (some (.root "Fiction")) (some (.root "Genre")) true).1.myTags :=
  ⟨Tag.addressLess_isAddressOrder,
   (cloneTag_additive Tag.addressLess Tag.addressLess_isAddressOrder exampleBook
      (some (.root "Fiction")) (some (.root "Genre")) true).1 _ (by decide)⟩

end CloneTag

/-! ## Book::setLanguage -/

section SetLanguage

variable {T : Type}

/-- Counterexample to C8 as stated: with the language codes `en` and `ru`, a
book whose stored language is the non-empty, unrecognized value `xx` (stored by
a first `setLanguage` on the new book, as `createBook` does) has its language
overwritten by `setLanguage("yy")` although `yy` is not a language code. -/
theorem setLanguage_overwrites_unrecognized :
    ((Book.new Tag ⟨"/books/a.fb2", "a"⟩ 0).setLanguage ["en", "ru"] "xx").myLanguage = "xx" ∧
    "xx" ≠ "" ∧ "yy" ∉ ["en", "ru"] ∧
    (((Book.new Tag ⟨"/books/a.fb2", "a"⟩ 0).setLanguage ["en", "ru"] "xx").setLanguage
        ["en", "ru"] "yy").myLanguage = "yy" ∧
    "yy" ≠ "xx" := by
  decide

/-- C8 (amended): `setLanguage` keeps the stored language when it is non-empty
and is itself a recognized language code and the new value is not a recognized
code; the book is then unchanged. -/
theorem setLanguage_keeps_recognized (codes : List String) (book : Book T)
    (language : String) (hne : book.myLanguage ≠ "") (hold : book.myLanguage ∈ codes)
    (hnew : language ∉ codes) :
    book.setLanguage codes language = book := by
  unfold Book.setLanguage
  simp [hne, hold, hnew]

/-- Witness of C8 (amended): the stored language `en` is kept when `yy` is set. -/
theorem setLanguage_keeps_recognized_witness :
    ((Book.new Tag ⟨"/books/a.fb2", "a"⟩ 0).setLanguage ["en", "ru"] "en").myLanguage ≠ "" ∧
    ((Book.new Tag ⟨"/books/a.fb2", "a"⟩ 0).setLanguage ["en", "ru"] "en").myLanguage
      ∈ ["en", "ru"] ∧
    "yy" ∉ ["en", "ru"] ∧
    (((Book.new Tag ⟨"/books/a.fb2", "a"⟩ 0).setLanguage ["en", "ru"] "en").setLanguage
        ["en", "ru"] "yy").myLanguage = "en" :=
  ⟨by decide, by decide, by decide,
   by rw [setLanguage_keeps_recognized ["en", "ru"] _ "yy" (by decide) (by decide) (by decide)]
      decide⟩

/-- In every other case `setLanguage` stores the new value. -/
lemma setLanguage_stores (codes : List String) (book : Book T) (language : String)
    (h : ¬ (book.myLanguage ≠ "" ∧ book.myLanguage ∈ codes ∧ language ∉ codes)) :
    (book.setLanguage codes language).myLanguage = language := by
  unfold Book.setLanguage
  by_cases hne : book.myLanguage = ""
  · simp [hne]
  · by_cases h2 : book.myLanguage ∈ codes ∧ language ∉ codes
    · exact absurd ⟨hne, h2⟩ h
    · simp [hne, h2]

end SetLanguage

/-! ## TagComparator -/

section LexLemmas

lemma lexLess_nil_right (u : List String) : lexLess u [] = false := by
  cases u <;> rfl

lemma lexLess_nil_left {v : List String} (hv : v ≠ []) : lexLess [] v = true := by
  cases v with
  | nil => exact absurd rfl hv
  | cons b bs => rfl

lemma lexLess_append_left (q u v : List String) :
    lexLess (q ++ u) (q ++ v) = lexLess u v := by
  induction q with
  | nil => rfl
  | cons a as ih => simp [lexLess, stdLess_irrefl, ih]

lemma lexLess_append_of_ne : ∀ (u v s t : List String), u.length = v.length → u ≠ v →
    lexLess (u ++ s) (v ++ t) = lexLess u v := by
  intro u
  induction u with
  | nil =>
    intro v s t hlen hne
    cases v with
    | nil => exact absurd rfl hne
    | cons b bs => simp at hlen
  | cons a as ih =>
    intro v s t hlen hne
    cases v with
    | nil => simp at hlen
    | cons b bs =>
      simp only [List.length_cons, Nat.add_right_cancel_iff] at hlen
      simp only [List.cons_append, lexLess]
      by_cases hab : a = b
      · subst hab
        have hne2 : as ≠ bs := fun e => hne (by rw [e])
        have h := ih bs s t hlen hne2
        simp only [List.append_eq] at h ⊢
        rw [h]
      · simp [hab]

lemma lexLess_take_self : ∀ (u : List String) (k : Nat), lexLess u (u.take k) = false := by
  intro u
  induction u with
  | nil => intro k; simp [lexLess]
  | cons a as ih =>
    intro k
    cases k with
    | zero => rfl
    | succ k => simp [lexLess, stdLess_irrefl, ih]

lemma lexLess_take_lt : ∀ (u : List String) (k : Nat), k < u.length →
    lexLess (u.take k) u = true := by
  intro u
  induction u with
  | nil => intro k hk; simp at hk
  | cons a as ih =>
    intro k hk
    cases k with
    | zero => rfl
    | succ k =>
      simp only [List.length_cons, Nat.add_lt_add_iff_right] at hk
      simp [lexLess, ih k hk]

end LexLemmas

section TagPaths

variable {T : Type}
variable (level : T → Nat) (parent : T → Option T) (name : T → String)

/-- The path of a root is its name. -/
lemma tagPath_root
    (hwf : WellFormedTags level parent name)
    (t : T) (h : parent t = none) : tagPath level parent name t = [name t] := by
  unfold tagPath
  rw [hwf.level_root t h]
  rfl

/-- The path of a tag with a parent is the path of the parent followed by its name. -/
lemma tagPath_child
    (hwf : WellFormedTags level parent name)
    (t p : T) (h : parent t = some p) :
    tagPath level parent name t = tagPath level parent name p ++ [name t] := by
  unfold tagPath
  rw [hwf.level_child t p h, pathOf, h]

lemma length_tagPath
    (hwf : WellFormedTags level parent name) :
    ∀ (n : Nat) (t : T), level t = n → (tagPath level parent name t).length = n + 1 := by
  intro n
  induction n with
  | zero =>
    intro t ht
    cases hp : parent t with
    | none => rw [tagPath_root level parent name hwf t hp]; rfl
    | some p =>
      have := hwf.level_child t p hp
      omega
  | succ n ih =>
    intro t ht
    cases hp : parent t with
    | none =>
      have := hwf.level_root t hp
      omega
    | some p =>
      have hl := hwf.level_child t p hp
      rw [tagPath_child level parent name hwf t p hp, List.length_append,
        ih p (by omega)]
      rfl

/-- Well-formed tags are identified by their paths. -/
lemma tagPath_injective
    (hwf : WellFormedTags level parent name) :
    ∀ (n : Nat) (a b : T), level a = n →
      tagPath level parent name a = tagPath level parent name b → a = b := by
  intro n
  induction n with
  | zero =>
    intro a b ha hab
    have hlen := congrArg List.length hab
    rw [length_tagPath level parent name hwf 0 a ha,
      length_tagPath level parent name hwf (level b) b rfl] at hlen
    have hb : level b = 0 := by omega
    have hpa : parent a = none := by
      cases hp : parent a with
      | none => rfl
      | some p => have := hwf.level_child a p hp; omega
    have hpb : parent b = none := by
      cases hp : parent b with
      | none => rfl
      | some p => have := hwf.level_child b p hp; omega
    rw [tagPath_root level parent name hwf a hpa,
      tagPath_root level parent name hwf b hpb] at hab
    exact hwf.siblings a b (by rw [hpa, hpb]) (by simpa using hab)
  | succ n ih =>
    intro a b ha hab
    have hlen := congrArg List.length hab
    rw [length_tagPath level parent name hwf (n + 1) a ha,
      length_tagPath level parent name hwf (level b) b rfl] at hlen
    have hb : level b = n + 1 := by omega
    cases hpa : parent a with
    | none => have := hwf.level_root a hpa; omega
    | some pa =>
      cases hpb : parent b with
      | none => have := hwf.level_root b hpb; omega
      | some pb =>
        have hla := hwf.level_child a pa hpa
        rw [tagPath_child level parent name hwf a pa hpa,
          tagPath_child level parent name hwf b pb hpb] at hab
        have h2 := List.append_inj' hab rfl
        have hpp : pa = pb := ih pa pb (by omega) h2.1
        exact hwf.siblings a b (by rw [hpa, hpb, hpp]) (by simpa using h2.2)

/-- The first loops of `TagComparator` reach the ancestor on the lower level. -/
lemma climb_spec
    (hwf : WellFormedTags level parent name) :
    ∀ (k : Nat) (t : T), k ≤ level t →
      ∃ u, climb parent k (some t) = some (some u) ∧ level u = level t - k ∧
        tagPath level parent name u = (tagPath level parent name t).take (level u + 1) := by
  intro k
  induction k with
  | zero =>
    intro t _
    refine ⟨t, rfl, rfl, ?_⟩
    rw [List.take_of_length_le]
    rw [length_tagPath level parent name hwf (level t) t rfl]
  | succ k ih =>
    intro t hk
    cases hp : parent t with
    | none => have := hwf.level_root t hp; omega
    | some p =>
      have hl := hwf.level_child t p hp
      obtain ⟨u, hu, hlu, hpu⟩ := ih p (by omega)
      refine ⟨u, ?_, by omega, ?_⟩
      · rw [climb, hp]; exact hu
      · rw [tagPath_child level parent name hwf t p hp, hpu]
        rw [List.take_append_of_le_length]
        rw [length_tagPath level parent name hwf (level p) p rfl]
        omega

end TagPaths

section TagOrder

variable {T : Type} [DecidableEq T]
variable (level : T → Nat) (parent : T → Option T) (name : T → String)

/-- With equal parents `TagComparator` ends on the comparison of the names. -/
lemma lockstep_same_parent (fuel : Nat) (a b : T) (h : parent a = parent b) :
    lockstep parent name fuel (some a) (some b) = some (stdLess (name a) (name b)) := by
  cases fuel <;> simp [lockstep, h]

/-- The last loop of `TagComparator` on two distinct tags of one level. -/
lemma lockstep_spec
    (hwf : WellFormedTags level parent name) :
    ∀ (n : Nat) (a b : T) (fuel : Nat), level a = n → level b = n → a ≠ b → n ≤ fuel →
      lockstep parent name fuel (some a) (some b) =
        some (lexLess (tagPath level parent name a) (tagPath level parent name b)) := by
  intro n
  induction n with
  | zero =>
    intro a b fuel ha hb _ _
    have hpa : parent a = none := by
      cases hp : parent a with
      | none => rfl
      | some p => have := hwf.level_child a p hp; omega
    have hpb : parent b = none := by
      cases hp : parent b with
      | none => rfl
      | some p => have := hwf.level_child b p hp; omega
    rw [lockstep_same_parent parent name fuel a b (by rw [hpa, hpb]),
      tagPath_root level parent name hwf a hpa, tagPath_root level parent name hwf b hpb]
    simp [lexLess]
  | succ n ih =>
    intro a b fuel ha hb hab hfuel
    cases hpa : parent a with
    | none => have := hwf.level_root a hpa; omega
    | some pa =>
      cases hpb : parent b with
      | none => have := hwf.level_root b hpb; omega
      | some pb =>
        have hla := hwf.level_child a pa hpa
        have hlb := hwf.level_child b pb hpb
        rw [tagPath_child level parent name hwf a pa hpa,
          tagPath_child level parent name hwf b pb hpb]
        by_cases hpp : pa = pb
        · rw [lockstep_same_parent parent name fuel a b (by rw [hpa, hpb, hpp])]
          subst hpp
          rw [lexLess_append_left]
          simp [lexLess]
        · cases fuel with
          | zero => omega
          | succ fuel =>
            have hne : parent a ≠ parent b := by
              rw [hpa, hpb]; exact fun e => hpp (Option.some.inj e)
            rw [lockstep, if_pos hne, hpa, hpb,
              ih pa pb fuel (by omega) (by omega) hpp (by omega)]
            rw [lexLess_append_of_ne]
            · rw [length_tagPath level parent name hwf n pa (by omega),
                length_tagPath level parent name hwf n pb (by omega)]
            · exact fun e => hpp (tagPath_injective level parent name hwf n pa pb
                (by omega) e)

end TagOrder

section TagOrderMain

variable {T : Type} [DecidableEq T]
variable (level : T → Nat) (parent : T → Option T) (name : T → String)

/-- On well-formed tags `TagComparator` returns, and its result is the
lexicographic comparison of the two paths. -/
lemma TagComparator_eq_lexLess
    (hwf : WellFormedTags level parent name)
    (fuel : Nat) (a b : T) (ha : level a ≤ fuel) (hb : level b ≤ fuel) :
    TagComparator level parent name fuel (some a) (some b) =
      some (lexLess (tagPath level parent name a) (tagPath level parent name b)) := by
  have hlena := length_tagPath level parent name hwf (level a) a rfl
  have hlenb := length_tagPath level parent name hwf (level b) b rfl
  unfold TagComparator
  simp only
  by_cases h1 : level a > level b
  · rw [if_pos h1]
    obtain ⟨u, hu, hlu, hpu⟩ :=
      climb_spec level parent name hwf (level a - level b) a (by omega)
    have hlu2 : level u = level b := by omega
    rw [hu]
    simp only
    by_cases hub : u = b
    · subst hub
      rw [if_pos rfl, hpu, lexLess_take_self]
    · have hne : ¬ (some u = some b) := fun e => hub (Option.some.inj e)
      rw [if_neg hne, lockstep_spec level parent name hwf (level b) u b fuel hlu2 rfl
        hub hb]
      have hsplit : tagPath level parent name a =
          tagPath level parent name u ++ (tagPath level parent name a).drop (level u + 1) := by
        rw [hpu, List.take_append_drop]
      have hlenu := length_tagPath level parent name hwf (level u) u rfl
      have hpne : tagPath level parent name u ≠ tagPath level parent name b :=
        fun e => hub (tagPath_injective level parent name hwf (level u) u b rfl e)
      have key := lexLess_append_of_ne (tagPath level parent name u)
        (tagPath level parent name b) ((tagPath level parent name a).drop (level u + 1)) []
        (by omega) hpne
      rw [List.append_nil, ← hsplit] at key
      rw [key]
  · rw [if_neg h1]
    by_cases h2 : level a < level b
    · rw [if_pos h2]
      obtain ⟨u, hu, hlu, hpu⟩ :=
        climb_spec level parent name hwf (level b - level a) b (by omega)
      have hlu2 : level u = level a := by omega
      rw [hu]
      simp only
      by_cases hau : a = u
      · subst hau
        rw [if_pos rfl, hpu, lexLess_take_lt _ _ (by omega)]
      · have hne : ¬ (some a = some u) := fun e => hau (Option.some.inj e)
        rw [if_neg hne, lockstep_spec level parent name hwf (level a) a u fuel rfl hlu2
          hau ha]
        have hsplit : tagPath level parent name b =
            tagPath level parent name u ++ (tagPath level parent name b).drop (level u + 1) := by
          rw [hpu, List.take_append_drop]
        have hlenu := length_tagPath level parent name hwf (level u) u rfl
        have hpne : tagPath level parent name a ≠ tagPath level parent name u :=
          fun e => hau (tagPath_injective level parent name hwf (level a) a u rfl e)
        have key := lexLess_append_of_ne (tagPath level parent name a)
          (tagPath level parent name u) [] ((tagPath level parent name b).drop (level u + 1))
          (by omega) hpne
        rw [List.append_nil, ← hsplit] at key
        rw [key]
    · rw [if_neg h2]
      by_cases hab : a = b
      · subst hab
        rw [lockstep_same_parent parent name fuel a a rfl, stdLess_irrefl, lexLess_irrefl]
      · exact lockstep_spec level parent name hwf (level a) a b fuel rfl (by omega)
          hab ha

/-- C9: `TagComparator` is a strict total order on well-formed tags.  The tags
are well-formed when the level of a tag is the length of its parent chain
and tags with the same parent reference and the same name are the same tag
(siblings have distinct names; among tags sharing a common root the root is the
only tag without a parent).  Then for all tags `a`, `b`, `c`,
with the last loop allowed as many iterations as the levels of the tags
(`fuel`), the comparator returns; it is irreflexive, asymmetric and transitive;
and of two distinct tags exactly one is before the other. -/
theorem TagComparator_strict_total_order
    (hwf : WellFormedTags level parent name)
    (fuel : Nat) (a b c : T) (ha : level a ≤ fuel) (hb : level b ≤ fuel)
    (hc : level c ≤ fuel) :
    (∃ r, TagComparator level parent name fuel (some a) (some b) = some r) ∧
    TagComparator level parent name fuel (some a) (some a) = some false ∧
    (TagComparator level parent name fuel (some a) (some b) = some true →
      TagComparator level parent name fuel (some b) (some a) = some false) ∧
    (TagComparator level parent name fuel (some a) (some b) = some true →
      TagComparator level parent name fuel (some b) (some c) = some true →
      TagComparator level parent name fuel (some a) (some c) = some true) ∧
    (a ≠ b →
      (TagComparator level parent name fuel (some a) (some b) = some true ∧
        TagComparator level parent name fuel (some b) (some a) = some false) ∨
      (TagComparator level parent name fuel (some a) (some b) = some false ∧
        TagComparator level parent name fuel (some b) (some a) = some true)) := by
  rw [TagComparator_eq_lexLess level parent name hwf fuel a b ha hb,
    TagComparator_eq_lexLess level parent name hwf fuel b a hb ha,
    TagComparator_eq_lexLess level parent name hwf fuel a a ha ha,
    TagComparator_eq_lexLess level parent name hwf fuel b c hb hc,
    TagComparator_eq_lexLess level parent name hwf fuel a c ha hc]
  simp only [Option.some.injEq]
  refine ⟨⟨_, rfl⟩, lexLess_irrefl _, fun h => lexLess_asymm h,
    fun h1 h2 => lexLess_trans _ _ _ h1 h2, ?_⟩
  intro hab
  cases h1 : lexLess (tagPath level parent name a) (tagPath level parent name b)
  · cases h2 : lexLess (tagPath level parent name b) (tagPath level parent name a)
    · exact absurd (tagPath_injective level parent name hwf (level a) a b rfl
        (lexLess_total _ _ h1 h2)) hab
    · exact Or.inr ⟨rfl, rfl⟩
  · exact Or.inl ⟨rfl, lexLess_asymm h1⟩

end TagOrderMain

section TagOrderWitness

lemma Tag.wellFormed : WellFormedTags Tag.level Tag.parent Tag.name where
  level_root t h := by cases t <;> simp_all [Tag.parent, Tag.level]
  level_child t p h := by cases t <;> simp_all [Tag.parent, Tag.level]
  siblings a b hp hn := by cases a <;> cases b <;> simp_all [Tag.parent, Tag.name]

/-- Witness of C9 on the model of `Tag`: Fiction is before Fiction.SciFi, which
is before History, so Fiction is before History. -/
theorem TagComparator_strict_total_order_witness :
    Tag.level (.root "Fiction") ≤ 1 ∧ Tag.level (.child (.root "Fiction") "SciFi") ≤ 1 ∧
    Tag.level (.root "History") ≤ 1 ∧
    TagComparator Tag.level Tag.parent Tag.name 1
      (some (.root "Fiction")) (some (.child (.root "Fiction") "SciFi")) = some true ∧
    TagComparator Tag.level Tag.parent Tag.name 1
      (some (.child (.root "Fiction") "SciFi")) (some (.root "History")) = some true ∧
    TagComparator Tag.level Tag.parent Tag.name 1
      (some (.root "Fiction")) (some (.root "History")) = some true :=
  ⟨by decide, by decide, by decide, by decide, by decide,
   (TagComparator_strict_total_order Tag.level Tag.parent Tag.name Tag.wellFormed 1
      (.root "Fiction") (.child (.root "Fiction") "SciFi")
      (.root "History") (by decide) (by decide) (by decide)).2.2.2.1 (by decide) (by decide)⟩

end TagOrderWitness

/-! ## AuthorComparator -/

section Authors

/-- C10: `AuthorComparator` orders null before everything else: for every
non-null author `a`, `cmp(null, a)` is true and `cmp(a, null)` is false, and
`cmp(null, null)` is false. -/
theorem AuthorComparator_null (a : Author) :
    AuthorComparator none (some a) = true ∧ AuthorComparator (some a) none = false ∧
    AuthorComparator none none = false :=
  ⟨rfl, rfl, rfl⟩

end Authors

/-! ## BookComparator and AuthorComparator as orders -/

section Compare

lemma stdLess_eq_false_iff (a b : String) : stdLess a b = false ↔ ¬ a < b := by
  rw [← Bool.not_eq_true, stdLess_iff]

lemma stdCompare_eq_zero (a b : String) : stdCompare a b = 0 ↔ a = b := by
  unfold stdCompare
  by_cases h1 : stdLess a b = true
  · have : a ≠ b := fun e => by rw [e, stdLess_irrefl] at h1; exact Bool.false_ne_true h1
    simp [h1, this]
  · by_cases h2 : a = b <;> simp [h1, h2, stdLess_irrefl]

lemma stdCompare_neg (a b : String) : stdCompare a b < 0 ↔ a < b := by
  unfold stdCompare
  by_cases h1 : stdLess a b = true
  · simp [h1, (stdLess_iff a b).mp h1]
  · have h3 : ¬ a < b := fun h => h1 ((stdLess_iff a b).mpr h)
    by_cases h2 : a = b <;> simp [h1, h2, h3, stdLess_irrefl]

end Compare

section BookOrder

variable {T : Type}

lemma wrapInt32_of_range (x : Int) (h1 : -2147483648 ≤ x) (h2 : x < 2147483648) :
    wrapInt32 x = x := by
  unfold wrapInt32
  omega

/-- Without overflow of the index difference `BookComparator` is the order of the sort keys. -/
lemma BookComparator_iff_key (a b : Book T)
    (h1 : -2147483648 ≤ a.myIndexInSeries - b.myIndexInSeries)
    (h2 : a.myIndexInSeries - b.myIndexInSeries < 2147483648) :
    BookComparator a b = true ↔ bookKey a < bookKey b := by
  unfold BookComparator bookKey
  simp only [wrapInt32_of_range _ h1 h2, stdCompare_eq_zero, stdCompare_neg, stdLessEq]
  by_cases hs : a.mySeriesTitle = b.mySeriesTitle
  · by_cases ha : a.mySeriesTitle = ""
    · have hb : b.mySeriesTitle = "" := by rw [← hs, ha]
      simp [ha, hb, Prod.Lex.lt_iff, stdLess_iff, -String.lt_iff_toList_lt]
    · have hb : ¬ b.mySeriesTitle = "" := by rw [← hs]; exact ha
      simp only [hs, hb, if_true, ne_eq, not_false_eq_true, Prod.Lex.lt_iff]
      by_cases hi : a.myIndexInSeries - b.myIndexInSeries = 0
      · have : a.myIndexInSeries = b.myIndexInSeries := by omega
        simp [hi, this, stdLess_iff, -String.lt_iff_toList_lt]
      · have hne : a.myIndexInSeries ≠ b.myIndexInSeries := by omega
        simp [hi, hne, -String.lt_iff_toList_lt]
  · have hs2 : ¬ b.mySeriesTitle = a.mySeriesTitle := fun e => hs e.symm
    by_cases ha : a.mySeriesTitle = ""
    · have hb : ¬ b.mySeriesTitle = "" := fun e => hs (by rw [ha, e])
      have hb2 : ¬ "" = b.mySeriesTitle := fun e => hb e.symm
      simp only [hs, ha, hb, hb2, if_true, if_false, ne_eq, not_true_eq_false,
        not_false_eq_true, Prod.Lex.lt_iff, stdLess_iff]
      constructor
      · exact fun h => Or.inl h
      · rintro (h | ⟨_, h | ⟨h, _⟩⟩)
        · exact h
        · exact absurd h (by decide)
        · exact absurd h (by decide)
    · by_cases hb : b.mySeriesTitle = ""
      · simp only [hs, ha, hb, if_true, if_false, ne_eq, not_true_eq_false, not_false_eq_true,
          Prod.Lex.lt_iff, Bool.not_eq_true', stdLess_eq_false_iff]
        constructor
        · intro h
          rcases lt_trichotomy a.mySeriesTitle b.myTitle with h3 | h3 | h3
          · exact Or.inl h3
          · exact Or.inr ⟨h3, Or.inl (by decide)⟩
          · exact absurd h3 h
        · rintro (h | ⟨h, _⟩)
          · exact lt_asymm h
          · rw [h]; exact lt_irrefl _
      · simp only [hs, ha, hb, if_true, if_false, ne_eq, not_true_eq_false, not_false_eq_true,
          Prod.Lex.lt_iff, decide_eq_true_eq, false_and, or_false]

end BookOrder

section BookOrderClaims

variable {T : Type}

/-- The strict weak ordering laws of `BookComparator` on three books whose index
differences do not overflow. -/
lemma BookComparator_laws (a b c : Book T)
    (hab : ∀ x ∈ [a, b, c], ∀ y ∈ [a, b, c],
      -2147483648 ≤ x.myIndexInSeries - y.myIndexInSeries ∧
      x.myIndexInSeries - y.myIndexInSeries < 2147483648) :
    BookComparator a a = false ∧
    (BookComparator a b = true → BookComparator b a = false) ∧
    (BookComparator a b = true → BookComparator b c = true → BookComparator a c = true) ∧
    (BookComparator a b = false → BookComparator b a = false →
      BookComparator b c = false → BookComparator c b = false →
      BookComparator a c = false ∧ BookComparator c a = false) := by
  have key : ∀ x ∈ [a, b, c], ∀ y ∈ [a, b, c],
      (BookComparator x y = true ↔ bookKey x < bookKey y) :=
    fun x hx y hy => BookComparator_iff_key x y (hab x hx y hy).1 (hab x hx y hy).2
  have keyf : ∀ x ∈ [a, b, c], ∀ y ∈ [a, b, c],
      (BookComparator x y = false ↔ ¬ bookKey x < bookKey y) := by
    intro x hx y hy
    rw [← key x hx y hy, Bool.not_eq_true]
  have ma : a ∈ [a, b, c] := by simp
  have mb : b ∈ [a, b, c] := by simp
  have mc : c ∈ [a, b, c] := by simp
  refine ⟨?_, ?_, ?_, ?_⟩
  · rw [keyf a ma a ma]; exact lt_irrefl _
  · rw [key a ma b mb, keyf b mb a ma]; exact fun h => lt_asymm h
  · rw [key a ma b mb, key b mb c mc, key a ma c mc]; exact fun h1 h2 => lt_trans h1 h2
  · rw [keyf a ma b mb, keyf b mb a ma, keyf b mb c mc, keyf c mc b mb, keyf a ma c mc,
      keyf c mc a ma]
    intro h1 h2 h3 h4
    have e1 : bookKey a = bookKey b := le_antisymm (not_lt.mp h2) (not_lt.mp h1)
    have e2 : bookKey b = bookKey c := le_antisymm (not_lt.mp h4) (not_lt.mp h3)
    rw [e1, e2]
    exact ⟨lt_irrefl _, lt_irrefl _⟩

/-- Counterexample to C12 as stated: no books with `indexInSeries` 0 violate
irreflexivity, asymmetry, transitivity or transitivity of incomparability of
`BookComparator`. -/
theorem BookComparator_no_violation_at_index_zero :
    ¬ ∃ a b c : Book Tag,
      a.myIndexInSeries = 0 ∧ b.myIndexInSeries = 0 ∧ c.myIndexInSeries = 0 ∧
      (BookComparator a a = true ∨
       (BookComparator a b = true ∧ BookComparator b a = true) ∨
       (BookComparator a b = true ∧ BookComparator b c = true ∧ BookComparator a c = false) ∨
       (BookComparator a b = false ∧ BookComparator b a = false ∧
        BookComparator b c = false ∧ BookComparator c b = false ∧
        ¬ (BookComparator a c = false ∧ BookComparator c a = false))) := by
  rintro ⟨a, b, c, ha, hb, hc, h⟩
  have hab : ∀ x ∈ [a, b, c], ∀ y ∈ [a, b, c],
      -2147483648 ≤ x.myIndexInSeries - y.myIndexInSeries ∧
      x.myIndexInSeries - y.myIndexInSeries < 2147483648 := by
    intro x hx y hy
    simp only [List.mem_cons, List.mem_singleton, List.not_mem_nil, or_false] at hx hy
    rcases hx with rfl | rfl | rfl <;> rcases hy with rfl | rfl | rfl <;> omega
  obtain ⟨l1, l2, l3, l4⟩ := BookComparator_laws a b c hab
  rcases h with h | ⟨h1, h2⟩ | ⟨h1, h2, h3⟩ | ⟨h1, h2, h3, h4, h5⟩
  · rw [l1] at h; exact Bool.false_ne_true h
  · rw [l2 h1] at h2; exact Bool.false_ne_true h2
  · rw [l3 h1 h2] at h3; exact Bool.false_ne_true h3.symm
  · exact h5 (l4 h1 h2 h3 h4)

/-- C12 (amended): `BookComparator` is a strict weak ordering on books whose
`indexInSeries` is not negative (0 in particular), the empty-series branch
included: it is irreflexive, asymmetric and transitive, and incomparability is
transitive. -/
theorem BookComparator_strict_weak_order (a b c : Book T)
    (ha : 0 ≤ a.myIndexInSeries ∧ a.myIndexInSeries ≤ 2147483647)
    (hb : 0 ≤ b.myIndexInSeries ∧ b.myIndexInSeries ≤ 2147483647)
    (hc : 0 ≤ c.myIndexInSeries ∧ c.myIndexInSeries ≤ 2147483647) :
    BookComparator a a = false ∧
    (BookComparator a b = true → BookComparator b a = false) ∧
    (BookComparator a b = true → BookComparator b c = true → BookComparator a c = true) ∧
    (BookComparator a b = false → BookComparator b a = false →
      BookComparator b c = false → BookComparator c b = false →
      BookComparator a c = false ∧ BookComparator c a = false) := by
  apply BookComparator_laws
  intro x hx y hy
  simp only [List.mem_cons, List.mem_singleton, List.not_mem_nil, or_false] at hx hy
  rcases hx with rfl | rfl | rfl <;> rcases hy with rfl | rfl | rfl <;> omega

/-- Witness of C12 (amended): a book without series titled "b", between the
series "a" and the series "c", all with index 0. -/
theorem BookComparator_strict_weak_order_witness :
    BookComparator (seriesBook "a" 0 "z") (seriesBook "" 0 "b") = true ∧
    BookComparator (seriesBook "" 0 "b") (seriesBook "c" 0 "y") = true ∧
    BookComparator (seriesBook "a" 0 "z") (seriesBook "c" 0 "y") = true :=
  ⟨by decide, by decide,
   (BookComparator_strict_weak_order (seriesBook "a" 0 "z") (seriesBook "" 0 "b")
      (seriesBook "c" 0 "y") (by decide) (by decide) (by decide)).2.2.1
      (by decide) (by decide)⟩

/-- Without overflow of the index difference, two books of one non-empty series
are ordered by index and then by title. -/
lemma BookComparator_same_series (a b : Book T) (hs : a.mySeriesTitle = b.mySeriesTitle)
    (hne : a.mySeriesTitle ≠ "")
    (h1 : -2147483648 ≤ a.myIndexInSeries - b.myIndexInSeries)
    (h2 : a.myIndexInSeries - b.myIndexInSeries < 2147483648) :
    BookComparator a b = true ↔
      a.myIndexInSeries < b.myIndexInSeries ∨
      (a.myIndexInSeries = b.myIndexInSeries ∧ a.myTitle < b.myTitle) := by
  have hb : b.mySeriesTitle ≠ "" := by rw [← hs]; exact hne
  rw [BookComparator_iff_key a b h1 h2]
  unfold bookKey
  simp only [hne, hb, if_true, ne_eq, not_false_eq_true, Prod.Lex.lt_iff, hs,
    lt_self_iff_false, true_and, false_or]

/-- C13: the failing input.  Two books of the series "S" with the same title and
the indices 2147483647 and -1: the `int` difference is 2^31, which is not an
`int`; wrapped it is negative, and the comparator puts the first book before
the second (and the second before the first) although 2147483647 > -1. -/
theorem BookComparator_index_overflow :
    (seriesBook "S" 2147483647 "a").mySeriesTitle = (seriesBook "S" (-1) "a").mySeriesTitle ∧
    (seriesBook "S" 2147483647 "a").mySeriesTitle ≠ "" ∧
    BookComparator (seriesBook "S" 2147483647 "a") (seriesBook "S" (-1) "a") = true ∧
    BookComparator (seriesBook "S" (-1) "a") (seriesBook "S" 2147483647 "a") = true ∧
    ¬ ((seriesBook "S" 2147483647 "a").myIndexInSeries <
          (seriesBook "S" (-1) "a").myIndexInSeries ∨
       ((seriesBook "S" 2147483647 "a").myIndexInSeries =
          (seriesBook "S" (-1) "a").myIndexInSeries ∧
        (seriesBook "S" 2147483647 "a").myTitle < (seriesBook "S" (-1) "a").myTitle)) := by
  refine ⟨rfl, by decide, by decide, by decide, ?_⟩
  simp [seriesBook]

end BookOrderClaims

section AuthorOrder

/-- On non-null authors `AuthorComparator` compares the sort keys and then the names. -/
lemma AuthorComparator_some (a b : Author) :
    AuthorComparator (some a) (some b) = true ↔
      a.sortKey < b.sortKey ∨ (a.sortKey = b.sortKey ∧ a.name < b.name) := by
  unfold AuthorComparator
  simp only
  by_cases h : a.sortKey = b.sortKey
  · have h0 : stdCompare a.sortKey b.sortKey = 0 := (stdCompare_eq_zero _ _).mpr h
    simp only [h0, ne_eq, not_true_eq_false, if_false, stdLess_iff]
    rw [h]
    simp only [lt_self_iff_false, true_and, false_or]
  · have h0 : stdCompare a.sortKey b.sortKey ≠ 0 := fun e => h ((stdCompare_eq_zero _ _).mp e)
    simp only [h0, ne_eq, not_false_eq_true, if_true, decide_eq_true_eq, stdCompare_neg, h,
      false_and, or_false]

/-- C11: on non-null authors `AuthorComparator` is the lexicographic order on the
pair (sort key, name); with null before every author it is a strict total
order on the handles, authors being identified by that pair: irreflexive,
transitive, and of two different handles exactly one is before the other. -/
theorem AuthorComparator_lexicographic :
    (∀ a b : Author, AuthorComparator (some a) (some b) = true ↔
      a.sortKey < b.sortKey ∨ (a.sortKey = b.sortKey ∧ a.name < b.name)) ∧
    (∀ a b : Author, a = b ↔ (a.sortKey = b.sortKey ∧ a.name = b.name)) ∧
    (∀ x : Option Author, AuthorComparator x x = false) ∧
    (∀ x y z : Option Author, AuthorComparator x y = true → AuthorComparator y z = true →
      AuthorComparator x z = true) ∧
    (∀ x y : Option Author, x ≠ y →
      (AuthorComparator x y = true ∧ AuthorComparator y x = false) ∨
      (AuthorComparator x y = false ∧ AuthorComparator y x = true)) := by
  have hfalse : ∀ a b : Author, AuthorComparator (some a) (some b) = false ↔
      ¬ (a.sortKey < b.sortKey ∨ (a.sortKey = b.sortKey ∧ a.name < b.name)) := by
    intro a b
    rw [← AuthorComparator_some, Bool.not_eq_true]
  refine ⟨AuthorComparator_some, ?_, ?_, ?_, ?_⟩
  · intro a b
    cases a; cases b
    simp only [Author.mk.injEq]
    tauto
  · intro x
    cases x with
    | none => rfl
    | some a =>
      rw [hfalse]
      rintro (h | ⟨_, h⟩)
      · exact lt_irrefl _ h
      · exact lt_irrefl _ h
  · intro x y z hxy hyz
    cases x with
    | none =>
      cases z with
      | none => cases y <;> simp [AuthorComparator] at hxy hyz
      | some c => rfl
    | some a =>
      cases y with
      | none => simp [AuthorComparator] at hxy
      | some b =>
        cases z with
        | none => simp [AuthorComparator] at hyz
        | some c =>
          rw [AuthorComparator_some] at hxy hyz ⊢
          rcases hxy with h1 | ⟨e1, h1⟩
          · rcases hyz with h2 | ⟨e2, h2⟩
            · exact Or.inl (lt_trans h1 h2)
            · exact Or.inl (e2 ▸ h1)
          · rcases hyz with h2 | ⟨e2, h2⟩
            · exact Or.inl (e1 ▸ h2)
            · exact Or.inr ⟨e1.trans e2, lt_trans h1 h2⟩
  · intro x y hxy
    cases x with
    | none =>
      cases y with
      | none => exact absurd rfl hxy
      | some b => exact Or.inl ⟨rfl, rfl⟩
    | some a =>
      cases y with
      | none => exact Or.inr ⟨rfl, rfl⟩
      | some b =>
        have hne : ¬ (a.sortKey = b.sortKey ∧ a.name = b.name) := by
          intro h
          apply hxy
          cases a; cases b
          simp only [Author.mk.injEq, Option.some.injEq]
          exact ⟨h.2, h.1⟩
        rw [AuthorComparator_some, AuthorComparator_some, hfalse, hfalse]
        rcases lt_trichotomy a.sortKey b.sortKey with h | h | h
        · left
          refine ⟨Or.inl h, ?_⟩
          rintro (h2 | ⟨e, _⟩)
          · exact lt_asymm h h2
          · rw [e] at h; exact lt_irrefl _ h
        · rcases lt_trichotomy a.name b.name with h2 | h2 | h2
          · left
            refine ⟨Or.inr ⟨h, h2⟩, ?_⟩
            rintro (h3 | ⟨_, h3⟩)
            · rw [h] at h3; exact lt_irrefl _ h3
            · exact lt_asymm h2 h3
          · exact absurd ⟨h, h2⟩ hne
          · right
            refine ⟨?_, Or.inr ⟨h.symm, h2⟩⟩
            rintro (h3 | ⟨_, h3⟩)
            · rw [h] at h3; exact lt_irrefl _ h3
            · exact lt_asymm h2 h3
        · right
          refine ⟨?_, Or.inl h⟩
          rintro (h2 | ⟨e, _⟩)
          · exact lt_asymm h h2
          · rw [e] at h; exact lt_irrefl _ h

end AuthorOrder

/-! ## Authors of a book, renaming a tag to itself, order of removeTag -/

section Authors2

variable {T : Type}

/-- C16: `addAuthor` does not filter duplicates.  For every book and non-null
author `a`, `addAuthor(a)` yields the old author list with `a` appended at the
end (length + 1), whether or not `a` was already present; a null author leaves
the book unchanged. -/
theorem addAuthor_appends (book : Book T) (a : Author) :
    (book.addAuthor (some a)).myAuthors = book.myAuthors ++ [some a] ∧
    (book.addAuthor (some a)).myAuthors.length = book.myAuthors.length + 1 ∧
    ((book.addAuthor (some a)).addAuthor (some a)).myAuthors =
      book.myAuthors ++ [some a, some a] ∧
    book.addAuthor none = book := by
  have hadd : ∀ b : Book T, b.addAuthor (some a) =
      { b with myAuthors := b.myAuthors ++ [some a] } := by
    intro b
    simp [Book.addAuthor]
  refine ⟨by rw [hadd], by rw [hadd]; simp, ?_, by simp [Book.addAuthor]⟩
  rw [hadd, hadd]
  simp

/-- The first occurrence of `a` in a list that has it, with what `assignFirst`
and `erase` do there. -/
lemma assignFirst_erase_of_mem {P : Type} [DecidableEq P] [BEq P] [LawfulBEq P] (a b : P)
    (l : List P) (h : a ∈ l) :
    ∃ pre post, l = pre ++ a :: post ∧ a ∉ pre ∧
      assignFirst a b l = pre ++ b :: post ∧ l.erase a = pre ++ post := by
  induction l with
  | nil => simp at h
  | cons x xs ih =>
    by_cases hx : x = a
    · subst hx
      exact ⟨[], xs, rfl, List.not_mem_nil _, by simp [assignFirst], by simp⟩
    · have hmem : a ∈ xs := by
        rcases List.mem_cons.mp h with e | e
        · exact absurd e.symm hx
        · exact e
      obtain ⟨pre, post, h1, h2, h3, h4⟩ := ih hmem
      refine ⟨x :: pre, post, by rw [h1]; rfl, ?_, ?_, ?_⟩
      · intro hin
        rcases List.mem_cons.mp hin with e | e
        · exact hx e.symm
        · exact h2 e
      · simp only [assignFirst, hx, if_false, h3, List.cons_append]
      · rw [List.erase_cons_tail (by simpa using hx), h4]; rfl

/-- C17: `replaceAuthor(from, to)` returns false and leaves the author list
unchanged iff `from` is not in the list; otherwise it returns true and only the
first occurrence of `from` is affected: it is replaced in place by `to` when
`to` is non-null and removed when `to` is null, every other element and the
order being kept. -/
theorem replaceAuthor_spec (book : Book T) (from_ to_ : Option Author) :
    (((book.replaceAuthor from_ to_).2 = false ∧
        (book.replaceAuthor from_ to_).1.myAuthors = book.myAuthors) ↔
      from_ ∉ book.myAuthors) ∧
    (from_ ∈ book.myAuthors →
      (book.replaceAuthor from_ to_).2 = true ∧
      ∃ pre post, book.myAuthors = pre ++ from_ :: post ∧ from_ ∉ pre ∧
        (to_ ≠ none → (book.replaceAuthor from_ to_).1.myAuthors = pre ++ to_ :: post) ∧
        (to_ = none → (book.replaceAuthor from_ to_).1.myAuthors = pre ++ post ∧
          (book.replaceAuthor from_ to_).1.myAuthors.length + 1 =
            book.myAuthors.length)) := by
  by_cases h : from_ ∈ book.myAuthors
  · obtain ⟨pre, post, h1, h2, h3, h4⟩ := assignFirst_erase_of_mem from_ to_ _ h
    cases to_ with
    | none =>
      have hr : book.replaceAuthor from_ none =
          ({ book with myAuthors := book.myAuthors.erase from_ }, true) := by
        unfold Book.replaceAuthor
        simp [h]
      rw [hr]
      refine ⟨by simp [h], fun _ => ⟨rfl, pre, post, h1, h2, fun e => absurd rfl e,
        fun _ => ⟨h4, ?_⟩⟩⟩
      show (book.myAuthors.erase from_).length + 1 = book.myAuthors.length
      rw [h4, h1]
      simp only [List.length_append, List.length_cons]
      omega
    | some b =>
      have hr : book.replaceAuthor from_ (some b) =
          ({ book with myAuthors := assignFirst from_ (some b) book.myAuthors }, true) := by
        unfold Book.replaceAuthor
        simp [h]
      rw [hr]
      exact ⟨by simp [h], fun _ => ⟨rfl, pre, post, h1, h2, fun _ => h3,
        fun e => absurd e (by simp)⟩⟩
  · unfold Book.replaceAuthor
    simp [h]

end Authors2

section RenameSelfRemoveOrder

variable {T : Type} [DecidableEq T]

/-- C19: renaming a tag to itself without sub-tags deletes it.  For every
duplicate-free tag list containing `t`, `renameTag(t, t, false)` returns true
and leaves the old list with `t` removed (the other tags in their order),
whereas `renameTag(t, t, true)` returns true and keeps `t` in the list. -/
theorem renameTag_to_itself (cloneSubTag : Option T → Option T → Option T → Option T)
    (lt : Option T → Option T → Bool) (hlt : IsAddressOrder lt) (book : Book T)
    (t : Option T) (hnodup : book.myTags.Nodup) (ht : t ∈ book.myTags) :
    (book.renameTag cloneSubTag lt t t false).2 = true ∧
    (book.renameTag cloneSubTag lt t t false).1.myTags =
      book.myTags.filter (fun x => decide (x ≠ t)) ∧
    t ∉ (book.renameTag cloneSubTag lt t t false).1.myTags ∧
    (book.renameTag cloneSubTag lt t t true).2 = true ∧
    t ∈ (book.renameTag cloneSubTag lt t t true).1.myTags := by
  have hfalse : book.renameTag cloneSubTag lt t t false =
      ({ book with myTags := book.myTags.erase t }, true) := by
    unfold Book.renameTag
    simp [ht]
  have herase : book.myTags.erase t = book.myTags.filter (fun x => decide (x ≠ t)) := by
    rw [hnodup.erase_eq_filter]
    congr 1
    funext x
    cases hx : decide (x = t) <;> simp_all [bne]
  have htrue : (book.renameTag cloneSubTag lt t t true).2 = true := by
    rw [renameTag_true_snd, List.any_eq_true]
    exact ⟨t, ht, by simp⟩
  refine ⟨by rw [hfalse], by rw [hfalse, ← herase], ?_, htrue, ?_⟩
  · rw [hfalse]
    exact hnodup.not_mem_erase
  · rw [renameTag_true_eq] at htrue ⊢
    split_ifs at htrue ⊢ with h
    show t ∈ (renameTagLoop cloneSubTag lt t t book.myTags [] false).1
    rw [mem_renameTagLoop cloneSubTag hlt]
    right
    exact List.mem_map.mpr ⟨t, ht, by simp⟩

/-- C20: for every tag list, non-null tag `t` and either value of
`includeSubTags`, `removeTag` returns, keeps the surviving tags in their
original relative order (the result is a sublist of the old list), and returns
true if and only if the list became strictly shorter. -/
theorem removeTag_sublist (isAncestorOf : T → Option T → Bool) (book : Book T) (t : T)
    (includeSubTags : Bool) :
    ∃ r, book.removeTag isAncestorOf (some t) includeSubTags = some r ∧
      r.1.myTags.Sublist book.myTags ∧
      (r.2 = true ↔ r.1.myTags.length < book.myTags.length) := by
  refine ⟨_, removeTag_some isAncestorOf book t includeSubTags, List.filter_sublist _, ?_⟩
  show book.myTags.any _ = true ↔ (List.filter _ book.myTags).length < book.myTags.length
  rw [List.length_filter_lt_length_iff_exists, List.any_eq_true]
  constructor
  · rintro ⟨x, hx, h⟩
    refine ⟨x, hx, ?_⟩
    simp only [Bool.not_eq_true', Bool.not_eq_false]
    exact h
  · rintro ⟨x, hx, h⟩
    refine ⟨x, hx, ?_⟩
    simp only [Bool.not_eq_true', Bool.not_eq_false] at h
    exact h

end RenameSelfRemoveOrder

/-- Witness of C19 on the model of `Tag`: renaming Fiction to itself in the book
tagged Fiction, Fiction.SciFi, History. -/
theorem renameTag_to_itself_witness :
    IsAddressOrder Tag.addressLess ∧ exampleBook.myTags.Nodup ∧
    some (Tag.root "Fiction") ∈ exampleBook.myTags ∧
    (exampleBook.renameTag Tag.cloneSubTag Tag.addressLess (some (.root "Fiction"))
        (some (.root "Fiction")) false).1.myTags =
      [some (.child (.root "Fiction") "SciFi"), some (.root "History")] ∧
    some (Tag.root "Fiction") ∈ (exampleBook.renameTag Tag.cloneSubTag Tag.addressLess
        (some (.root "Fiction")) (some (.root "Fiction")) true).1.myTags := by
  have h := renameTag_to_itself Tag.cloneSubTag Tag.addressLess Tag.addressLess_isAddressOrder
    exampleBook (some (.root "Fiction")) (by decide) (by decide)
  refine ⟨Tag.addressLess_isAddressOrder, by decide, by decide, ?_, h.2.2.2.2⟩
  rw [h.2.1]
  decide

/-! ## Book::matches -/

section MatchesLemmas

variable {T : Type}

/-- Without null handles the loop over the authors returns whether some author's name matches. -/
lemma matchesAuthorsLoop_spec (m : String → String → Bool) (pattern : String)
    (l : List (Option Author)) (h : none ∉ l) :
    ∃ r, matchesAuthorsLoop m pattern l = some r ∧
      (r = true ↔ ∃ a, some a ∈ l ∧ m a.name pattern = true) := by
  induction l with
  | nil => exact ⟨false, rfl, by simp⟩
  | cons x xs ih =>
    have hxs : none ∉ xs := fun e => h (List.mem_cons_of_mem _ e)
    cases x with
    | none => exact absurd (List.mem_cons_self _ _) h
    | some a =>
      by_cases hm : m a.name pattern = true
      · exact ⟨true, by simp [matchesAuthorsLoop, hm], by
          simp only [true_iff]
          exact ⟨a, List.mem_cons_self _ _, hm⟩⟩
      · obtain ⟨r, hr, hiff⟩ := ih hxs
        refine ⟨r, by simp [matchesAuthorsLoop, hm, hr], ?_⟩
        rw [hiff]
        constructor
        · rintro ⟨b, hb, hmb⟩
          exact ⟨b, List.mem_cons_of_mem _ hb, hmb⟩
        · rintro ⟨b, hb, hmb⟩
          rcases List.mem_cons.mp hb with e | e
          · cases e
            exact absurd hmb hm
          · exact ⟨b, e, hmb⟩

/-- Without null handles the loop over the tags returns whether some tag's name matches. -/
lemma matchesTagsLoop_spec (m : String → String → Bool) (name : T → String)
    (pattern : String) (l : List (Option T)) (h : none ∉ l) :
    ∃ r, matchesTagsLoop m name pattern l = some r ∧
      (r = true ↔ ∃ t, some t ∈ l ∧ m (name t) pattern = true) := by
  induction l with
  | nil => exact ⟨false, rfl, by simp⟩
  | cons x xs ih =>
    have hxs : none ∉ xs := fun e => h (List.mem_cons_of_mem _ e)
    cases x with
    | none => exact absurd (List.mem_cons_self _ _) h
    | some a =>
      by_cases hm : m (name a) pattern = true
      · exact ⟨true, by simp [matchesTagsLoop, hm], by
          simp only [true_iff]
          exact ⟨a, List.mem_cons_self _ _, hm⟩⟩
      · obtain ⟨r, hr, hiff⟩ := ih hxs
        refine ⟨r, by simp [matchesTagsLoop, hm, hr], ?_⟩
        rw [hiff]
        constructor
        · rintro ⟨b, hb, hmb⟩
          exact ⟨b, List.mem_cons_of_mem _ hb, hmb⟩
        · rintro ⟨b, hb, hmb⟩
          rcases List.mem_cons.mp hb with e | e
          · cases e
            exact absurd hmb hm
          · exact ⟨b, e, hmb⟩

/-- What `Book::matches` computes for any matcher: an empty title and an empty
series title are not tested. -/
lemma matches_eq (m : String → String → Bool) (name : T → String) (book : Book T)
    (pattern : String) (hauthors : none ∉ book.myAuthors) (htags : none ∉ book.myTags) :
    ∃ r, book.matches m name pattern = some r ∧
      (r = true ↔
        (book.myTitle ≠ "" ∧ m book.myTitle pattern = true) ∨
        (book.mySeriesTitle ≠ "" ∧ m book.mySeriesTitle pattern = true) ∨
        (∃ a, some a ∈ book.myAuthors ∧ m a.name pattern = true) ∨
        (∃ t, some t ∈ book.myTags ∧ m (name t) pattern = true) ∨
        m book.myFile.displayName pattern = true) := by
  obtain ⟨ra, hra, hai⟩ := matchesAuthorsLoop_spec m pattern book.myAuthors hauthors
  obtain ⟨rt, hrt, hti⟩ := matchesTagsLoop_spec m name pattern book.myTags htags
  unfold Book.matches
  by_cases h1 : book.myTitle ≠ "" ∧ m book.myTitle pattern = true
  · exact ⟨true, by rw [if_pos h1], by simp only [true_iff]; exact Or.inl h1⟩
  · rw [if_neg h1]
    by_cases h2 : book.mySeriesTitle ≠ "" ∧ m book.mySeriesTitle pattern = true
    · exact ⟨true, by rw [if_pos h2], by simp only [true_iff]; exact Or.inr (Or.inl h2)⟩
    · rw [if_neg h2, hra]
      cases ra with
      | true =>
        exact ⟨true, rfl, by simp only [true_iff]; exact Or.inr (Or.inr (Or.inl (hai.mp rfl)))⟩
      | false =>
        have ha : ¬ ∃ a, some a ∈ book.myAuthors ∧ m a.name pattern = true :=
          fun e => Bool.false_ne_true (hai.mpr e)
        simp only [hrt]
        cases rt with
        | true =>
          exact ⟨true, rfl, by
            simp only [true_iff]; exact Or.inr (Or.inr (Or.inr (Or.inl (hti.mp rfl))))⟩
        | false =>
          have ht : ¬ ∃ t, some t ∈ book.myTags ∧ m (name t) pattern = true :=
            fun e => Bool.false_ne_true (hti.mpr e)
          by_cases h5 : m book.myFile.displayName pattern = true
          · exact ⟨true, by simp [h5], by
              simp only [true_iff]; exact Or.inr (Or.inr (Or.inr (Or.inr h5)))⟩
          · refine ⟨false, by simp [h5], ?_⟩
            simp only [Bool.false_eq_true, false_iff]
            rintro (h | h | h | h | h)
            · exact h1 h
            · exact h2 h
            · exact ha h
            · exact ht h
            · exact h5 h

lemma beginsWith_nil_left (p : List Char) : beginsWith [] p = true ↔ p = [] := by
  cases p <;> simp [beginsWith]

lemma occursIn_nil_left (t : List Char) : occursIn [] t = true := by
  cases t <;> simp [occursIn, beginsWith]

lemma occursIn_nil_right (p : List Char) : occursIn p [] = true ↔ p = [] := by
  simp [occursIn, beginsWith_nil_left]

/-- A pattern found in the empty text is found in every text. -/
lemma matchesIgnoreCase_of_empty (pattern text : String)
    (h : matchesIgnoreCase "" pattern = true) : matchesIgnoreCase text pattern = true := by
  unfold matchesIgnoreCase at h ⊢
  have h0 : "".toList = [] := rfl
  rw [h0, List.map_nil, occursIn_nil_right] at h
  rw [h]
  exact occursIn_nil_left _

end MatchesLemmas

section MatchesClaim

variable {T : Type}

/-- C14: for every book (without null handles in its author and tag lists) and
every pattern, `Book::matches(pattern)` returns, and it is true if and only if
the case-insensitive matcher accepts the pattern against at least one of: the
title, the series title, the name of some author, the name of some tag, or the
display name of the file; in particular a book with an author named
"J.R.R. Tolkien" matches "tolkien". -/
theorem matches_spec (name : T → String) (book : Book T) (pattern : String)
    (hauthors : none ∉ book.myAuthors) (htags : none ∉ book.myTags) :
    (∃ r, book.matches matchesIgnoreCase name pattern = some r) ∧
    (book.matches matchesIgnoreCase name pattern = some true ↔
      matchesIgnoreCase book.myTitle pattern = true ∨
      matchesIgnoreCase book.mySeriesTitle pattern = true ∨
      (∃ a, some a ∈ book.myAuthors ∧ matchesIgnoreCase a.name pattern = true) ∨
      (∃ t, some t ∈ book.myTags ∧ matchesIgnoreCase (name t) pattern = true) ∨
      matchesIgnoreCase book.myFile.displayName pattern = true) ∧
    (∀ a, some a ∈ book.myAuthors → a.name = "J.R.R. Tolkien" →
      book.matches matchesIgnoreCase name "tolkien" = some true) := by
  have key : ∀ p : String, book.matches matchesIgnoreCase name p = some true ↔
      matchesIgnoreCase book.myTitle p = true ∨
      matchesIgnoreCase book.mySeriesTitle p = true ∨
      (∃ a, some a ∈ book.myAuthors ∧ matchesIgnoreCase a.name p = true) ∨
      (∃ t, some t ∈ book.myTags ∧ matchesIgnoreCase (name t) p = true) ∨
      matchesIgnoreCase book.myFile.displayName p = true := by
    intro p
    obtain ⟨r, hr, hiff⟩ := matches_eq matchesIgnoreCase name book p hauthors htags
    rw [hr, Option.some.injEq, hiff]
    constructor
    · rintro (h | h | h | h | h)
      · exact Or.inl h.2
      · exact Or.inr (Or.inl h.2)
      · exact Or.inr (Or.inr (Or.inl h))
      · exact Or.inr (Or.inr (Or.inr (Or.inl h)))
      · exact Or.inr (Or.inr (Or.inr (Or.inr h)))
    · rintro (h | h | h | h | h)
      · by_cases he : book.myTitle = ""
        · rw [he] at h
          exact Or.inr (Or.inr (Or.inr (Or.inr (matchesIgnoreCase_of_empty p _ h))))
        · exact Or.inl ⟨he, h⟩
      · by_cases he : book.mySeriesTitle = ""
        · rw [he] at h
          exact Or.inr (Or.inr (Or.inr (Or.inr (matchesIgnoreCase_of_empty p _ h))))
        · exact Or.inr (Or.inl ⟨he, h⟩)
      · exact Or.inr (Or.inr (Or.inl h))
      · exact Or.inr (Or.inr (Or.inr (Or.inl h)))
      · exact Or.inr (Or.inr (Or.inr (Or.inr h)))
  refine ⟨?_, key pattern, ?_⟩
  · obtain ⟨r, hr, _⟩ := matches_eq matchesIgnoreCase name book pattern hauthors htags
    exact ⟨r, hr⟩
  · intro a ha hname
    rw [key]
    refine Or.inr (Or.inr (Or.inl ⟨a, ha, ?_⟩))
    rw [hname]
    decide

end MatchesClaim

/-- Witness of C14: the book with author J.R.R. Tolkien matches "tolkien". -/
theorem matches_spec_witness :
    none ∉ tolkienBook.myAuthors ∧ none ∉ tolkienBook.myTags ∧
    tolkienBook.matches matchesIgnoreCase Tag.name "tolkien" = some true :=
  ⟨by decide, by decide,
   (matches_spec Tag.name tolkienBook "tolkien" (by decide) (by decide)).2.2
     { name := "J.R.R. Tolkien", sortKey := "Tolkien" } (by decide) rfl⟩

/-! ## The split loop of Book::loadFromBookInfo -/

section SplitLemmas

lemma splitOn_cons (c x : Char) (xs : List Char) :
    (x :: xs).splitOn c =
      if x = c then [] :: xs.splitOn c else (xs.splitOn c).modifyHead (List.cons x) := by
  simp only [List.splitOn, List.splitOnP_cons, beq_iff_eq]

lemma splitOn_ne_nil (c : Char) (l : List Char) : l.splitOn c ≠ [] := by
  cases l with
  | nil => simp [List.splitOn, List.splitOnP_nil]
  | cons x xs =>
    rw [splitOn_cons]
    split_ifs
    · simp
    · have ih := splitOn_ne_nil c xs
      cases h : xs.splitOn c with
      | nil => exact absurd h ih
      | cons f fs => simp [List.modifyHead]

/-- A sequence without the separator is one field. -/
lemma splitOn_of_not_mem (c : Char) (l : List Char) (h : c ∉ l) : l.splitOn c = [l] := by
  induction l with
  | nil => simp [List.splitOn, List.splitOnP_nil]
  | cons x xs ih =>
    rw [List.mem_cons, not_or] at h
    have hx : ¬ x = c := fun e => h.1 e.symm
    rw [splitOn_cons, if_neg hx, ih h.2]
    rfl

/-- The first field ends at the first separator. -/
lemma splitOn_append_cons (c : Char) (pre post : List Char) (h : c ∉ pre) :
    (pre ++ c :: post).splitOn c = pre :: post.splitOn c := by
  induction pre with
  | nil => rw [List.nil_append, splitOn_cons, if_pos rfl]
  | cons x xs ih =>
    rw [List.mem_cons, not_or] at h
    have hx : ¬ x = c := fun e => h.1 e.symm
    rw [List.cons_append, splitOn_cons, if_neg hx, ih h.2]
    rfl

/-- The number of fields is the number of separators plus one. -/
lemma length_splitOn (c : Char) (l : List Char) : (l.splitOn c).length = l.count c + 1 := by
  induction l with
  | nil => simp [List.splitOn, List.splitOnP_nil]
  | cons x xs ih =>
    rw [splitOn_cons]
    by_cases hx : x = c
    · subst hx
      simp [ih]
    · have hne := splitOn_ne_nil c xs
      have hcount : List.count c (x :: xs) = List.count c xs := by
        rw [List.count_cons]
        simp [hx]
      rw [if_neg hx, hcount, ← ih]
      cases h : xs.splitOn c with
      | nil => exact absurd h hne
      | cons f fs => simp [List.modifyHead]

lemma stdFind_found (w : Nat) (s : String) (index : Nat) (pre post : List Char)
    (h : s.toList.drop index = pre ++ ',' :: post) (hpre : ',' ∉ pre) :
    stdFind w s ',' index = index + pre.length := by
  unfold stdFind
  simp only [h]
  have htw : List.takeWhile (fun x => decide (x ≠ ',')) (pre ++ ',' :: post) = pre := by
    rw [List.takeWhile_append_of_pos]
    · simp
    · intro a ha
      simp only [ne_eq, decide_not, Bool.not_eq_true', decide_eq_false_iff_not]
      exact fun e => hpre (e ▸ ha)
  rw [htw, if_pos (by simp)]

lemma stdFind_none (w : Nat) (s : String) (index : Nat) (h : ',' ∉ s.toList.drop index) :
    stdFind w s ',' index = npos w := by
  unfold stdFind
  simp only
  have htw : List.takeWhile (fun x => decide (x ≠ ',')) (s.toList.drop index) =
      s.toList.drop index := by
    rw [List.takeWhile_eq_self_iff]
    intro a ha
    simp only [ne_eq, decide_not, Bool.not_eq_true', decide_eq_false_iff_not]
    exact fun e => h (e ▸ ha)
  rw [htw, if_neg (lt_irrefl _)]

end SplitLemmas

section SplitLoop

variable {σ : Type}

/-- The split loop from position `index` on: one call per field of the rest of
the string, in order. -/
lemma splitLoop_from (w : Nat) (call : σ → String → σ) (s : String)
    (hlen : s.length < 2 ^ w) :
    ∀ (fuel index : Nat) (book : σ), index ≤ s.length →
      (s.toList.drop index).count ',' < fuel →
      splitLoop w call s fuel index book =
        some ((((s.toList.drop index).splitOn ',').map String.mk).foldl call book) := by
  have hlen2 : s.toList.length < 2 ^ w := hlen
  intro fuel
  induction fuel with
  | zero => intro index book _ h; exact absurd h (Nat.not_lt_zero _)
  | succ fuel ih =>
    intro index book hindex hcount
    have hindex2 : index ≤ s.toList.length := hindex
    have hsub : ¬ index > s.length := Nat.not_lt.mpr hindex
    rw [splitLoop]
    by_cases hmem : ',' ∈ s.toList.drop index
    · obtain ⟨pre, post, hsplit, hpre⟩ := List.eq_append_cons_of_mem hmem
      have hl : (s.toList.drop index).length = pre.length + (post.length + 1) := by
        rw [hsplit]; simp
      rw [List.length_drop] at hl
      have hfind := stdFind_found w s index pre post hsplit hpre
      have hmod1 : (index + pre.length + 2 ^ w - index) % 2 ^ w = pre.length := by
        have : index + pre.length + 2 ^ w - index = pre.length + 2 ^ w := by omega
        rw [this, Nat.add_mod_right, Nat.mod_eq_of_lt (by omega)]
      have hmod2 : (index + pre.length + 1) % 2 ^ w = index + pre.length + 1 :=
        Nat.mod_eq_of_lt (by omega)
      have hdrop : s.toList.drop (index + pre.length + 1) = post := by
        have := congrArg (List.drop (pre.length + 1)) hsplit
        rw [List.drop_drop] at this
        rw [show index + pre.length + 1 = index + (pre.length + 1) by omega, this]
        rw [show pre ++ ',' :: post = (pre ++ [',']) ++ post by simp]
        exact List.drop_left' (by simp)
      have hc : post.count ',' < fuel := by
        rw [hsplit, List.count_append, List.count_cons_self] at hcount
        omega
      have hnz : index + pre.length + 1 ≠ 0 := by omega
      have hle : index + pre.length + 1 ≤ s.length := by
        have : s.length = s.toList.length := rfl
        omega
      have hrec := ih (index + pre.length + 1) (call book (String.mk pre)) hle
        (by rw [hdrop]; exact hc)
      simp only [hfind, stdSubstr, hsub, if_false, hmod1, hmod2, hsplit, List.take_left,
        ne_eq, hnz, not_false_eq_true, if_true]
      rw [hrec, hdrop, splitOn_append_cons ',' pre post hpre]
      rfl
    · have hfind := stdFind_none w s index hmem
      have hpos : 0 < 2 ^ w := Nat.pos_of_ne_zero (by positivity)
      have hmod1 : (npos w + 2 ^ w - index) % 2 ^ w = 2 ^ w - 1 - index := by
        unfold npos
        have : 2 ^ w - 1 + 2 ^ w - index = (2 ^ w - 1 - index) + 2 ^ w := by omega
        rw [this, Nat.add_mod_right, Nat.mod_eq_of_lt (by omega)]
      have hmod2 : (npos w + 1) % 2 ^ w = 0 := by
        unfold npos
        rw [Nat.sub_add_cancel hpos, Nat.mod_self]
      have htake : List.take (2 ^ w - 1 - index) (s.toList.drop index) = s.toList.drop index := by
        apply List.take_of_length_le
        rw [List.length_drop]
        omega
      simp only [hfind, stdSubstr, hsub, if_false, hmod1, hmod2, htake, ne_eq,
        not_true_eq_false]
      rw [splitOn_of_not_mem ',' _ hmem]
      rfl

/-- C15: for every comma-joined option string `s` (non-empty or not) whose
positions fit in `size_t`, the split loop of `Book::loadFromBookInfo` ends
(within one iteration per comma plus one) and makes its call, `addTag` or
`addAuthor`, on exactly the fields of `s` split on ',' in left-to-right order,
one call per field; `k` commas give `k + 1` fields, empty fields included; and
the loop ends because `npos + 1` wraps to 0. -/
theorem splitLoop_spec (w : Nat) (s : String) (fuel : Nat) (call : σ → String → σ)
    (book : σ) (hlen : s.length < 2 ^ w) (hfuel : s.toList.count ',' < fuel) :
    splitLoop w call s fuel 0 book =
      some (((s.toList.splitOn ',').map String.mk).foldl call book) ∧
    (s.toList.splitOn ',').length = s.toList.count ',' + 1 ∧
    [','].intercalate (s.toList.splitOn ',') = s.toList ∧
    (npos w + 1) % 2 ^ w = 0 := by
  refine ⟨?_, length_splitOn ',' _, List.intercalate_splitOn s.toList ',', ?_⟩
  · have h := splitLoop_from w call s hlen fuel 0 book (Nat.zero_le _) (by simpa using hfuel)
    simpa using h
  · unfold npos
    rw [Nat.sub_add_cancel (Nat.pos_of_ne_zero (by positivity)), Nat.mod_self]

end SplitLoop

/-- Witness of C15: the example of the spec.  With `TagsOption` "A,B,C" and a
64-bit `size_t`, `loadFromBookInfo` yields a book with the tags A, B, C in that
order. -/
theorem splitLoop_spec_witness :
    "A,B,C".length < 2 ^ 64 ∧ "A,B,C".toList.count ',' < 3 ∧
    splitLoop 64 (fun (b : Book Tag) field => (b.addTag (Tag.getTagByFullName field)).1)
        "A,B,C" 3 0 (Book.new Tag ⟨"/books/a.fb2", "a"⟩ 0) =
      some (["A", "B", "C"].foldl
        (fun (b : Book Tag) field => (b.addTag (Tag.getTagByFullName field)).1)
        (Book.new Tag ⟨"/books/a.fb2", "a"⟩ 0)) ∧
    (Book.loadFromBookInfo 64 ["en"] "en" Tag.getTagByFullName Author.getAuthor 3
        exampleInfo ⟨"/books/a.fb2", "a"⟩).map (fun b => b.myTags) =
      some [some (.root "A"), some (.root "B"), some (.root "C")] :=
  ⟨by decide, by decide,
   (splitLoop_spec 64 "A,B,C" 3 _ _ (by decide) (by decide)).1, by decide⟩

/-! ## Book::loadFromFile -/

section LoadFromFile

variable {T : Type}

/-- C18: `loadFromFile` returns null iff no plugin handles the file or the
plugin's `readMetaInfo` fails; on success the title of the returned book is the
plugin-supplied title with surrounding whitespace stripped, or the (UTF-8)
display name of the file when that stripped title is empty; its encoding is
"auto" when the plugin left it empty; and its language is the default-language
option when the plugin left it empty. -/
theorem loadFromFile_spec (plugin : ZLFile → Option (FormatPlugin T))
    (stripWhiteSpaces : String → String) (fileNameToUtf8 : String → String)
    (codes : List String) (defaultLanguage : String) (file : ZLFile) :
    (Book.loadFromFile plugin stripWhiteSpaces fileNameToUtf8 codes defaultLanguage file = none ↔
      plugin file = none ∨
      ∃ p, plugin file = some p ∧ (p.readMetaInfo (Book.new T file 0)).2 = false) ∧
    (∀ p b, plugin file = some p → p.readMetaInfo (Book.new T file 0) = (b, true) →
      ∃ r, Book.loadFromFile plugin stripWhiteSpaces fileNameToUtf8 codes defaultLanguage file
          = some r ∧
        r.myTitle = (if stripWhiteSpaces b.myTitle = "" then fileNameToUtf8 file.displayName
                     else stripWhiteSpaces b.myTitle) ∧
        r.myEncoding = (if b.myEncoding = "" then "auto" else b.myEncoding) ∧
        r.myLanguage = (if b.myLanguage = "" then defaultLanguage else b.myLanguage)) := by
  constructor
  · unfold Book.loadFromFile
    cases hp : plugin file with
    | none => simp
    | some p =>
      rcases hr : p.readMetaInfo (Book.new T file 0) with ⟨b, ok⟩
      cases ok <;> simp [hr]
  · intro p b hp hr
    unfold Book.loadFromFile
    simp only [hp, hr]
    refine ⟨_, rfl, ?_, ?_, ?_⟩
    · by_cases h1 : stripWhiteSpaces b.myTitle = "" <;>
        by_cases h2 : b.myEncoding = "" <;>
        by_cases h3 : b.myLanguage = "" <;>
        simp [Book.setTitle, Book.setEncoding, Book.setLanguage, h1, h2, h3]
    · by_cases h1 : stripWhiteSpaces b.myTitle = "" <;>
        by_cases h2 : b.myEncoding = "" <;>
        by_cases h3 : b.myLanguage = "" <;>
        simp [Book.setTitle, Book.setEncoding, Book.setLanguage, Book.AutoEncoding, h1, h2, h3]
    · by_cases h1 : stripWhiteSpaces b.myTitle = "" <;>
        by_cases h2 : b.myEncoding = "" <;>
        by_cases h3 : b.myLanguage = "" <;>
        simp [Book.setTitle, Book.setEncoding, Book.setLanguage, h1, h2, h3]

end LoadFromFile


/-- Witness of C18: the example of the spec.  A plugin that supplies a title of
blanks only: the returned book has the display name of the file as its title,
the encoding "auto" and the default language. -/
theorem loadFromFile_spec_witness :
    ∃ r, Book.loadFromFile (fun _ => some (examplePlugin "   ")) exampleStrip id ["en", "ru"]
        "en" ⟨"/books/dune.fb2", "dune"⟩ = some r ∧
      r.myTitle = "dune" ∧ r.myEncoding = "auto" ∧ r.myLanguage = "en" :=
  (loadFromFile_spec (fun _ => some (examplePlugin "   ")) exampleStrip id ["en", "ru"] "en"
    ⟨"/books/dune.fb2", "dune"⟩).2 (examplePlugin "   ") _ rfl rfl

end FBReader
